import Mathlib

/-!
Verification of the memory-mapped dataset / sample-mapping core of this
repository (`nemo/collections/llm/gpt/data/core.py`).

The Python classes are shallowly embedded as Lean functions:
* `OnlineSampleMapping.__init__` becomes `mkState`, producing an `OSMState`
  record holding the derived fields stored on the Python object;
* `OnlineSampleMapping.__getitem__` (integer path) becomes `osmGetIndex`,
  the slice path becomes `osmGetSlice`;
* `OnlineSampleMapping.get_sample_block` becomes `getSampleBlock`, and the
  `functools.lru_cache` wrapper becomes `getSampleBlockCached` over an
  explicit cache value;
* `TextMemMapDataset.load_file` becomes `loadFile`,
  `TextMemMapDataset.__getitem__` / `_fetch_sample_from_memmap` become
  `getRecord` / `fetchSample` over byte lists, and
  `_build_memmap_index_files` becomes `buildMemmapIndexFiles`.

`numpy.random.RandomState(seed).permutation` is abstracted as a seeded
permutation generator `rngPerm : Nat → Nat → List Nat` carried in the
parameters; theorems that depend on shuffling assume each generated list is
a permutation of `List.range n`, which is the only property of the numpy
generator the code relies on.
-/

namespace NeMoCore

instance {ε α : Type} [DecidableEq ε] [DecidableEq α] : DecidableEq (Except ε α) := fun a b =>
  match a, b with
  | .ok x, .ok y =>
    if h : x = y then .isTrue (h ▸ rfl) else .isFalse (fun hc => h (Except.ok.inj hc))
  | .error x, .error y =>
    if h : x = y then .isTrue (h ▸ rfl) else .isFalse (fun hc => h (Except.error.inj hc))
  | .ok _, .error _ => .isFalse (fun hc => Except.noConfusion hc)
  | .error _, .ok _ => .isFalse (fun hc => Except.noConfusion hc)

/-- Models `int(np.ceil(a / b))` for natural `a` and positive `b`. -/
def ceilDiv (a b : Nat) : Nat := (a + b - 1) / b

/-- Models `np.cumsum l` : entry `j` is the sum of the first `j + 1` elements. -/
def cumsum (l : List Nat) : List Nat :=
  (List.range l.length).map (fun j => (l.take (j + 1)).sum)

/-- Models `np.digitize x bins` with the default `right=False` for an increasing
`bins`: the number of bin edges that are `≤ x`. -/
def natDigitize (x : Nat) (bins : List Nat) : Nat := bins.countP (fun b => b ≤ x)

/-- Wrap-around step of Python / numpy indexing: a negative index is offset
by the length. -/
def pyIndex (len : Nat) (i : Int) : Int := if i < 0 then i + len else i

/-- Python / numpy indexing of a one-dimensional array: a negative index
counts from the end; out-of-range access yields `none` (an `IndexError`). -/
def pyGet {α : Type} (l : List α) (i : Int) : Option α :=
  if pyIndex l.length i < 0 then none else l[(pyIndex l.length i).toNat]?

/-- The constructor arguments of `OnlineSampleMapping`, together with the
abstracted numpy permutation generator. -/
structure OSMParams where
  dataset_size : Nat
  num_samples : Nat
  block_size : Nat
  cache_maxsize : Nat
  seed : Nat
  shuffle : Bool
  truncate_to_block_boundary : Bool
  rngPerm : Nat → Nat → List Nat

/-- Models `self.block_size = min(self.block_size, self.dataset_size)`. -/
def osmBS (p : OSMParams) : Nat := min p.block_size p.dataset_size

/-- Models `self.required_samples = max(self.num_samples, self.dataset_size)`
before truncation. -/
def osmReq0 (p : OSMParams) : Nat := max p.num_samples p.dataset_size

/-- Models `last_block_size = self.required_samples % self.block_size` before
truncation. -/
def osmLBS0 (p : OSMParams) : Nat := osmReq0 p % osmBS p

/-- Models `self.num_blocks = int(np.ceil(required_samples / block_size))` before
truncation. -/
def osmNB0 (p : OSMParams) : Nat := ceilDiv (osmReq0 p) (osmBS p)

/-- Whether the `truncate_to_block_boundary and last_block_size` branch of
`__init__` runs. -/
def osmDoTrunc (p : OSMParams) : Bool :=
  p.truncate_to_block_boundary && (osmLBS0 p != 0)

/-- Models `self.num_samples` after the optional truncation adjustment. -/
def osmNS (p : OSMParams) : Nat :=
  if osmDoTrunc p && (osmReq0 p == p.num_samples) then p.num_samples - osmLBS0 p
  else p.num_samples

/-- Models `self.num_blocks` after the optional truncation adjustment. -/
def osmNB (p : OSMParams) : Nat :=
  if osmDoTrunc p then osmNB0 p - 1 else osmNB0 p

/-- Models `self.required_samples` after the optional truncation adjustment. -/
def osmReq (p : OSMParams) : Nat :=
  if osmDoTrunc p then osmReq0 p - osmLBS0 p else osmReq0 p

/-- Models `last_block_size` after the optional truncation adjustment. -/
def osmLBS (p : OSMParams) : Nat :=
  if osmDoTrunc p then 0 else osmLBS0 p

/-- Models `block_size_list = np.full(num_blocks, block_size)`, with the last entry
replaced by `last_block_size` when that is nonzero. -/
def osmBSL0 (p : OSMParams) : List Nat :=
  if osmLBS p ≠ 0 then List.replicate (osmNB p - 1) (osmBS p) ++ [osmLBS p]
  else List.replicate (osmNB p) (osmBS p)

/-- Models `block_idx_list`, optionally reordered by the construction-time
permutation `idx = local_rng.permutation(np.arange(num_blocks))`. -/
def osmBIL (p : OSMParams) : List Nat :=
  if p.shuffle then
    (p.rngPerm p.seed (osmNB p)).map (fun j => (List.range (osmNB p)).getD j 0)
  else List.range (osmNB p)

/-- Models `block_size_list`, reordered by the same construction-time permutation. -/
def osmBSL (p : OSMParams) : List Nat :=
  if p.shuffle then
    (p.rngPerm p.seed (osmNB p)).map (fun j => (osmBSL0 p).getD j 0)
  else osmBSL0 p

/-- The state stored on an `OnlineSampleMapping` object after `__init__`. -/
structure OSMState where
  dataset_size : Nat
  num_samples : Nat
  block_size : Nat
  cache_maxsize : Nat
  seed : Nat
  shuffle : Bool
  truncate_to_block_boundary : Bool
  rngPerm : Nat → Nat → List Nat
  required_samples : Nat
  num_blocks : Nat
  use_digitize : Bool
  block_idx_list : List Nat
  block_size_list : List Nat
  block_bins : List Nat

/-- Models `OnlineSampleMapping.__init__`. -/
def mkState (p : OSMParams) : OSMState :=
  { dataset_size := p.dataset_size
    num_samples := osmNS p
    block_size := osmBS p
    cache_maxsize := p.cache_maxsize
    seed := p.seed
    shuffle := p.shuffle
    truncate_to_block_boundary := p.truncate_to_block_boundary
    rngPerm := p.rngPerm
    required_samples := osmReq p
    num_blocks := osmNB p
    use_digitize := osmLBS p != 0
    block_idx_list := osmBIL p
    block_size_list := osmBSL p
    block_bins := cumsum (osmBSL p) }

/-- Models `OnlineSampleMapping.get_sample_block`: raises when the block index is
out of range, otherwise materialises the arithmetic range of the original
block, shuffles it with the generator seeded by `seed + block_idx` when
shuffling is on, and projects it modulo `dataset_size`. -/
def blockRange (st : OSMState) (block_idx : Nat) : List Nat :=
  List.range' (st.block_idx_list.getD block_idx 0 * st.block_size)
    (st.block_size_list.getD block_idx 0)

def getSampleBlock (st : OSMState) (block_idx : Nat) : Except String (List Nat) :=
  if st.num_blocks ≤ block_idx then .error "block_idx is out of range"
  else .ok
    ((if st.shuffle then
        (st.rngPerm (st.seed + block_idx) (st.block_size_list.getD block_idx 0)).map
          (fun j => (blockRange st block_idx).getD j 0)
      else blockRange st block_idx).map (fun v => v % st.dataset_size))

/-- The block lookup and in-block indexing done by
`OnlineSampleMapping.__getitem__` after its range checks (`idx` is already
a valid non-negative index).  Note `local_idx = idx - block_bins[block_idx]`
is negative and relies on Python wrap-around indexing of the block. -/
def blockIdxOf (st : OSMState) (i : Nat) : Nat :=
  if st.use_digitize then natDigitize i st.block_bins else i / st.block_size

/-- The in-block indexing step shared by the cached and uncached paths of
`__getitem__`: index the fetched block with the (negative) local index. -/
def lookupInBlock (st : OSMState) (i : Nat) (blkRes : Except String (List Nat)) :
    Except String Nat :=
  match blkRes with
  | .error e => .error e
  | .ok blk =>
    match pyGet blk ((i : Int) - (st.block_bins.getD (blockIdxOf st i) 0 : Int)) with
    | some v => .ok v
    | none => .error "Index out of range"

def osmLookup (st : OSMState) (i : Nat) : Except String Nat :=
  match getSampleBlock st (blockIdxOf st i) with
  | .error e => .error e
  | .ok blk =>
    match pyGet blk ((i : Int) - (st.block_bins.getD (blockIdxOf st i) 0 : Int)) with
    | some v => .ok v
    | none => .error "Index out of range"

/-- Models `OnlineSampleMapping.__getitem__` for an integer argument: returns the
3-tuple `(sample_idx, None, None)` or raises `IndexError`. -/
def osmGetIndex (st : OSMState) (idx : Int) :
    Except String (Nat × Option Nat × Option Nat) :=
  if (st.num_samples : Int) ≤ idx then .error "Index out of range"
  else if pyIndex st.num_samples idx < 0 then .error "Index out of range"
  else (osmLookup st (pyIndex st.num_samples idx).toNat).map (fun v => (v, none, none))

/-- Modelled from the spec: `handle_index` is imported from
`nemo.collections.llm.gpt.data.utils`, which is not among the sources here.
Spec section 4.4 describes the slice path as Python-slice semantics over
`[0, num_samples)` with clamped bounds and negative indices wrapping from
the end. -/
def handleIndex (ns : Nat) (idx : Int) : Int :=
  if idx < 0 then max 0 (idx + ns) else idx

/-- The length of the Python `range(start, stop, step)` sequence. -/
def pyRangeLen (start stop step : Int) : Nat :=
  if 0 < step then ((stop - start + step - 1) / step).toNat
  else if step < 0 then ((start - stop + (-step) - 1) / (-step)).toNat
  else 0

/-- Python `range(start, stop, step)` as a list. -/
def pyRange (start stop step : Int) : List Int :=
  (List.range (pyRangeLen start stop step)).map (fun k => start + step * k)

/-- The list comprehension `[self[idx] for idx in range(start, stop, step)]`:
the first raised `IndexError` aborts the whole comprehension. -/
def mapGetIndex (st : OSMState) :
    List Int → Except String (List (Nat × Option Nat × Option Nat))
  | [] => .ok []
  | idx :: rest =>
    match osmGetIndex st idx, mapGetIndex st rest with
    | .ok v, .ok vs => .ok (v :: vs)
    | .error e, _ => .error e
    | .ok _, .error e => .error e

/-- Models `OnlineSampleMapping.__getitem__` for a slice argument: resolves the
bounds, clamps them to `num_samples`, and maps the integer lookup over the
resulting Python range. -/
def osmGetSlice (st : OSMState) (start? stop? step? : Option Int) :
    Except String (List (Nat × Option Nat × Option Nat)) :=
  let start := handleIndex st.num_samples (start?.getD 0)
  let start := if (st.num_samples : Int) ≤ start then (st.num_samples : Int) else start
  let stop := handleIndex st.num_samples (stop?.getD st.num_samples)
  let stop := if (st.num_samples : Int) ≤ stop then (st.num_samples : Int) else stop
  let step := step?.getD 1
  mapGetIndex st (pyRange start stop step)

/-- The constructor arguments recorded by `OnlineSampleMapping.__reduce__`:
the (possibly adjusted) fields stored on the object. -/
def osmReduceParams (st : OSMState) : OSMParams :=
  { dataset_size := st.dataset_size
    num_samples := st.num_samples
    block_size := st.block_size
    cache_maxsize := st.cache_maxsize
    seed := st.seed
    shuffle := st.shuffle
    truncate_to_block_boundary := st.truncate_to_block_boundary
    rngPerm := st.rngPerm }

/-- The `functools.lru_cache` state wrapped around `get_sample_block`:
most-recently-used first. -/
abbrev BlockCache := List (Nat × List Nat)

/-- A cache state is coherent when every entry stores exactly the block that
`get_sample_block` computes for its key (which is all `lru_cache` ever
stores). -/
def cacheCoherent (st : OSMState) (c : BlockCache) : Prop :=
  ∀ e ∈ c, getSampleBlock st e.1 = .ok e.2

/-- Models `get_sample_block` through the `lru_cache` wrapper: a hit moves the
entry to the front, a miss computes the block and inserts it, evicting the
least recently used entries beyond `cache_maxsize`. -/
def getSampleBlockCached (st : OSMState) (c : BlockCache) (k : Nat) :
    Except String (List Nat) × BlockCache :=
  match c.find? (fun e => e.1 == k) with
  | some e => (.ok e.2, (k, e.2) :: c.eraseP (fun e => e.1 == k))
  | none =>
    match getSampleBlock st k with
    | .ok v => (.ok v, ((k, v) :: c).take st.cache_maxsize)
    | .error e => (.error e, c)

/-- Models `osmLookup` with the cached block fetch, threading the cache state. -/
def osmLookupCached (st : OSMState) (c : BlockCache) (i : Nat) :
    Except String Nat × BlockCache :=
  (lookupInBlock st i (getSampleBlockCached st c (blockIdxOf st i)).1,
    (getSampleBlockCached st c (blockIdxOf st i)).2)

/-- Models `OnlineSampleMapping.__getitem__` (integer path) with the cached block
fetch, threading the cache state. -/
def osmGetIndexCached (st : OSMState) (c : BlockCache) (idx : Int) :
    Except String (Nat × Option Nat × Option Nat) × BlockCache :=
  if (st.num_samples : Int) ≤ idx then (.error "Index out of range", c)
  else if pyIndex st.num_samples idx < 0 then (.error "Index out of range", c)
  else
    ((osmLookupCached st c (pyIndex st.num_samples idx).toNat).1.map
        (fun v => (v, none, none)),
      (osmLookupCached st c (pyIndex st.num_samples idx).toNat).2)

/-! ### Arithmetic and list helper lemmas -/

theorem ceilDiv_of_mod_eq_zero {a b : Nat} (hb : 0 < b) (h : a % b = 0) :
    ceilDiv a b = a / b := by
  have h1 := Nat.div_add_mod a b
  unfold ceilDiv
  have h3 : a + b - 1 = b * (a / b) + (b - 1) := by omega
  rw [h3, Nat.mul_add_div hb, Nat.div_eq_of_lt (show b - 1 < b by omega), Nat.add_zero]

theorem ceilDiv_of_mod_ne_zero {a b : Nat} (hb : 0 < b) (h : a % b ≠ 0) :
    ceilDiv a b = a / b + 1 := by
  have h1 := Nat.div_add_mod a b
  have h2 : a % b < b := Nat.mod_lt _ hb
  have hm : b * (a / b + 1) = b * (a / b) + b := Nat.mul_succ b (a / b)
  unfold ceilDiv
  have h3 : a + b - 1 = b * (a / b + 1) + (a % b - 1) := by omega
  rw [h3, Nat.mul_add_div hb, Nat.div_eq_of_lt (show a % b - 1 < b by omega),
    Nat.add_zero]

theorem sum_of_all_eq {l : List Nat} {c : Nat} (h : ∀ x ∈ l, x = c) :
    l.sum = l.length * c := by
  induction l with
  | nil => simp
  | cons a t ih =>
    simp only [List.sum_cons, List.length_cons]
    rw [h a (by simp), ih (fun x hx => h x (List.mem_cons_of_mem a hx))]
    ring

theorem sum_take_le_sum {l : List Nat} (b : Nat) : (l.take b).sum ≤ l.sum := by
  conv_rhs => rw [← List.take_append_drop b l]
  rw [List.sum_append]
  omega

theorem sum_take_mono {l : List Nat} {i j : Nat} (h : i ≤ j) :
    (l.take i).sum ≤ (l.take j).sum := by
  have h1 : l.take i = (l.take j).take i := by
    rw [List.take_take, Nat.min_eq_left h]
  rw [h1]
  exact sum_take_le_sum i

theorem sum_take_succ {l : List Nat} {b : Nat} (hb : b < l.length) :
    (l.take (b + 1)).sum = (l.take b).sum + l[b] := by
  rw [List.take_succ, List.sum_append, List.getElem?_eq_getElem hb]
  simp

theorem cumsum_getD {l : List Nat} {b : Nat} (hb : b < l.length) :
    (cumsum l).getD b 0 = (l.take (b + 1)).sum := by
  unfold cumsum
  rw [List.getD_eq_getElem _ _ (by simpa using hb)]
  simp

theorem countP_of_iff {n b : Nat} (hb : b ≤ n) (q : Nat → Bool)
    (hq : ∀ j < n, (q j = true ↔ j < b)) : (List.range n).countP q = b := by
  induction n with
  | zero =>
    simp only [List.range_zero, List.countP_nil]
    omega
  | succ n ih =>
    rw [List.range_succ, List.countP_append, List.countP_cons, List.countP_nil]
    by_cases h : b ≤ n
    · have h1 : (List.range n).countP q = b :=
        ih h (fun j hj => hq j (by omega))
      have h2 : q n = false := by
        have h3 := hq n (by omega)
        by_cases h4 : q n = true
        · exact absurd (h3.mp h4) (by omega)
        · simpa using h4
      simp [h1, h2]
    · have hb1 : b = n + 1 := by omega
      subst hb1
      have h1 : (List.range n).countP q = n := by
        rw [List.countP_eq_length.mpr, List.length_range]
        intro a ha
        rw [List.mem_range] at ha
        exact (hq a (by omega)).mpr (by omega)
      have h2 : q n = true := (hq n (by omega)).mpr (by omega)
      simp [h1, h2]

theorem natDigitize_eq {sizes : List Nat} {b pos : Nat}
    (hb : b < sizes.length) (hp2 : pos < sizes.getD b 0) :
    natDigitize ((sizes.take b).sum + pos) (cumsum sizes) = b := by
  unfold natDigitize cumsum
  rw [List.countP_map]
  apply countP_of_iff (Nat.le_of_lt hb)
  intro j hj
  simp only [Function.comp_apply, decide_eq_true_eq]
  have hgd : sizes.getD b 0 = sizes[b] := List.getD_eq_getElem _ _ hb
  constructor
  · intro hle
    by_contra hnb
    have hbj : b + 1 ≤ j + 1 := by omega
    have h1 : (sizes.take (b + 1)).sum ≤ (sizes.take (j + 1)).sum := sum_take_mono hbj
    have h2 : (sizes.take (b + 1)).sum = (sizes.take b).sum + sizes[b] := sum_take_succ hb
    omega
  · intro hjb
    have h1 : (sizes.take (j + 1)).sum ≤ (sizes.take b).sum := sum_take_mono (by omega)
    omega

theorem pyGet_neg {α : Type} (l : List α) (pos c : Nat) (hpc : pos < c)
    (hl : l.length = c) : pyGet l ((pos : Int) - c) = l[pos]? := by
  have hpi : pyIndex l.length ((pos : Int) - c) = pos := by
    unfold pyIndex
    rw [if_pos (by omega : (pos : Int) - c < 0), hl]
    omega
  unfold pyGet
  rw [hpi, if_neg (by omega : ¬((pos : Int) < 0))]
  simp

/-! ### The core block-lookup lemma

For any state whose block lists are well formed, looking up the global
index `prefix-sum-of-blocks-before-b + pos` lands in block `b` at in-block
offset `pos` (via the negative Python index `idx - block_bins[block_idx]`).
-/

theorem osmLookup_block (st : OSMState)
    (hlen : st.block_size_list.length = st.num_blocks)
    (hbins : st.block_bins = cumsum st.block_size_list)
    (hdig : st.use_digitize = false → ∀ x ∈ st.block_size_list, x = st.block_size)
    {b pos : Nat} (hb : b < st.num_blocks)
    (hp2 : pos < st.block_size_list.getD b 0)
    {blk : List Nat} (hblk : getSampleBlock st b = .ok blk)
    (hlb : blk.length = st.block_size_list.getD b 0) :
    osmLookup st ((st.block_size_list.take b).sum + pos) = .ok (blk.getD pos 0) := by
  have hbl : b < st.block_size_list.length := by omega
  have hgd : st.block_size_list.getD b 0 = st.block_size_list[b] :=
    List.getD_eq_getElem _ _ hbl
  have hbi : blockIdxOf st ((st.block_size_list.take b).sum + pos) = b := by
    unfold blockIdxOf
    cases hud : st.use_digitize with
    | true =>
      rw [if_pos rfl, hbins]
      exact natDigitize_eq hbl hp2
    | false =>
      rw [if_neg (by simp)]
      have hall : ∀ x ∈ st.block_size_list, x = st.block_size := hdig hud
      have hmem : st.block_size_list[b] ∈ st.block_size_list := List.getElem_mem hbl
      have hBb : st.block_size_list[b] = st.block_size := hall _ hmem
      have hBpos : 0 < st.block_size := by omega
      have hsum : (st.block_size_list.take b).sum = b * st.block_size := by
        have h1 : ∀ x ∈ st.block_size_list.take b, x = st.block_size :=
          fun x hx => hall x (List.mem_of_mem_take hx)
        rw [sum_of_all_eq h1, List.length_take, Nat.min_eq_left (Nat.le_of_lt hbl)]
      rw [hsum, Nat.mul_comm, Nat.mul_add_div hBpos, Nat.div_eq_of_lt (by omega),
        Nat.add_zero]
  have hbinsb : st.block_bins.getD b 0 =
      (st.block_size_list.take b).sum + st.block_size_list[b] := by
    rw [hbins, cumsum_getD hbl, sum_take_succ hbl]
  have hunf : osmLookup st ((st.block_size_list.take b).sum + pos) =
      match pyGet blk ((((st.block_size_list.take b).sum + pos : Nat) : Int) -
          (st.block_bins.getD b 0 : Int)) with
      | some v => .ok v
      | none => .error "Index out of range" := by
    unfold osmLookup
    rw [hbi, hblk]
  have hpg : pyGet blk
      ((((st.block_size_list.take b).sum + pos : Nat) : Int) -
        (st.block_bins.getD b 0 : Int)) = blk[pos]? := by
    rw [hbinsb]
    have h1 : (((st.block_size_list.take b).sum + pos : Nat) : Int) -
        (((st.block_size_list.take b).sum + st.block_size_list[b] : Nat) : Int) =
        (pos : Int) - (st.block_size_list[b] : Int) := by push_cast; ring
    rw [h1]
    exact pyGet_neg blk pos _ (by omega) (by omega)
  rw [hunf, hpg, List.getElem?_eq_getElem (show pos < blk.length by omega)]
  have hgd2 : blk.getD pos 0 = blk[pos] := List.getD_eq_getElem _ _ (by omega)
  rw [hgd2]

/-! ### Structural facts about the constructed state -/

theorem osmBS_pos (p : OSMParams) (hds : 1 ≤ p.dataset_size) (hbs : 1 ≤ p.block_size) :
    1 ≤ osmBS p := by
  unfold osmBS
  omega

theorem osmBS_le (p : OSMParams) : osmBS p ≤ p.dataset_size := by
  unfold osmBS
  omega

theorem getD_replicate_lt {n j a : Nat} (h : j < n) :
    (List.replicate n a).getD j 0 = a := by
  rw [List.getD_eq_getElem _ _ (by simpa using h)]
  simp

theorem getD_append_left {l1 l2 : List Nat} {j : Nat} (h : j < l1.length) :
    (l1 ++ l2).getD j 0 = l1.getD j 0 := by
  rw [List.getD_eq_getElem _ _ (by simp; omega), List.getElem_append_left h,
    List.getD_eq_getElem _ _ h]

theorem getD_append_last {l1 : List Nat} {a j : Nat} (h : j = l1.length) :
    (l1 ++ [a]).getD j 0 = a := by
  subst h
  rw [List.getD_eq_getElem _ _ (by simp)]
  rw [List.getElem_append_right (Nat.le_refl _)]
  simp

theorem take_append_left_sum {l1 l2 : List Nat} {b : Nat} (h : b ≤ l1.length) :
    ((l1 ++ l2).take b).sum = (l1.take b).sum := by
  rw [List.take_append_eq_append_take, Nat.sub_eq_zero_of_le h, List.take_zero,
    List.append_nil]

/-- When no truncation happens, the adjusted fields equal the raw ones. -/
theorem noTrunc_fields (p : OSMParams) (htr : p.truncate_to_block_boundary = false) :
    osmNS p = p.num_samples ∧ osmReq p = osmReq0 p ∧ osmNB p = osmNB0 p ∧
      osmLBS p = osmLBS0 p := by
  unfold osmNS osmReq osmNB osmLBS osmDoTrunc
  rw [htr]
  simp

/-- When shuffling is off, the block lists are kept in construction order. -/
theorem noShuffle_lists (p : OSMParams) (hsh : p.shuffle = false) :
    osmBIL p = List.range (osmNB p) ∧ osmBSL p = osmBSL0 p := by
  unfold osmBIL osmBSL
  rw [hsh]
  simp

/-- Shape of the block-size list and of `required_samples` when the last
block is not shortened. -/
theorem osmLBS_zero_struct (p : OSMParams) (hds : 1 ≤ p.dataset_size)
    (hbs : 1 ≤ p.block_size) (h : osmLBS p = 0) :
    osmBSL0 p = List.replicate (osmNB p) (osmBS p) ∧
      osmReq p = osmBS p * osmNB p := by
  have hB : 1 ≤ osmBS p := osmBS_pos p hds hbs
  have hbsl : osmBSL0 p = List.replicate (osmNB p) (osmBS p) := by
    unfold osmBSL0
    rw [if_neg (by omega)]
  refine ⟨hbsl, ?_⟩
  have hdm := Nat.div_add_mod (osmReq0 p) (osmBS p)
  have hL0eq : osmLBS0 p = osmReq0 p % osmBS p := rfl
  unfold osmReq osmNB osmLBS at *
  unfold osmDoTrunc at *
  by_cases htr : p.truncate_to_block_boundary && (osmLBS0 p != 0)
  · rw [if_pos htr] at h ⊢
    rw [if_pos htr]
    have hL0 : osmLBS0 p ≠ 0 := by
      intro hc
      simp [hc] at htr
    have hnb0 : osmNB0 p = osmReq0 p / osmBS p + 1 := by
      unfold osmNB0
      exact ceilDiv_of_mod_ne_zero (by omega) (by omega)
    have h4 : osmBS p * (osmNB0 p - 1) = osmBS p * (osmReq0 p / osmBS p) := by
      rw [hnb0, Nat.add_sub_cancel]
    omega
  · rw [if_neg htr] at h ⊢
    rw [if_neg htr]
    have hnb0 : osmNB0 p = osmReq0 p / osmBS p := by
      unfold osmNB0
      exact ceilDiv_of_mod_eq_zero (by omega) (by omega)
    have h4 : osmBS p * osmNB0 p = osmBS p * (osmReq0 p / osmBS p) := by
      rw [hnb0]
    omega

/-- Shape of the block-size list and of `required_samples` when the last
block is shortened (no truncation requested). -/
theorem osmLBS_ne_struct (p : OSMParams) (hds : 1 ≤ p.dataset_size)
    (hbs : 1 ≤ p.block_size) (h : osmLBS p ≠ 0) :
    0 < osmLBS p ∧ osmLBS p < osmBS p ∧ 1 ≤ osmNB p ∧
      osmBSL0 p = List.replicate (osmNB p - 1) (osmBS p) ++ [osmLBS p] ∧
      osmReq p = osmBS p * (osmNB p - 1) + osmLBS p := by
  have hB : 1 ≤ osmBS p := osmBS_pos p hds hbs
  have hbsl : osmBSL0 p = List.replicate (osmNB p - 1) (osmBS p) ++ [osmLBS p] := by
    unfold osmBSL0
    rw [if_pos h]
  have hdtr : osmDoTrunc p = false := by
    by_contra hc
    have : osmDoTrunc p = true := by
      cases hx : osmDoTrunc p
      · exact absurd hx hc
      · rfl
    unfold osmLBS at h
    rw [if_pos this] at h
    exact h rfl
  have hL : osmLBS p = osmLBS0 p := by
    unfold osmLBS
    rw [hdtr]
    simp
  have hreq : osmReq p = osmReq0 p := by
    unfold osmReq
    rw [hdtr]
    simp
  have hnb : osmNB p = osmNB0 p := by
    unfold osmNB
    rw [hdtr]
    simp
  have hL0eq : osmLBS0 p = osmReq0 p % osmBS p := rfl
  have hL0 : osmLBS0 p ≠ 0 := by omega
  have hnb0 : osmNB0 p = osmReq0 p / osmBS p + 1 :=
    ceilDiv_of_mod_ne_zero (by omega) (by omega)
  have hdm := Nat.div_add_mod (osmReq0 p) (osmBS p)
  have hmlt : osmLBS0 p < osmBS p := by
    rw [hL0eq]
    exact Nat.mod_lt _ (by omega)
  have h4 : osmBS p * (osmNB p - 1) = osmBS p * (osmReq0 p / osmBS p) := by
    rw [hnb, hnb0, Nat.add_sub_cancel]
  have hc1 : 0 < osmLBS p := by omega
  have hc2 : osmLBS p < osmBS p := by omega
  have hc3 : 1 ≤ osmNB p := by
    rw [hnb, hnb0]
    exact Nat.le_add_left 1 _
  have hc5 : osmReq p = osmBS p * (osmNB p - 1) + osmLBS p := by
    rw [hreq, h4, hL, hL0eq]
    exact hdm.symm
  exact ⟨hc1, hc2, hc3, hbsl, hc5⟩

theorem osmBSL0_length (p : OSMParams) (hds : 1 ≤ p.dataset_size)
    (hbs : 1 ≤ p.block_size) : (osmBSL0 p).length = osmNB p := by
  by_cases h : osmLBS p = 0
  · rw [(osmLBS_zero_struct p hds hbs h).1]
    simp
  · obtain ⟨_, _, hnb1, hbsl, _⟩ := osmLBS_ne_struct p hds hbs h
    rw [hbsl]
    simp
    omega

theorem osmBSL0_sum (p : OSMParams) (hds : 1 ≤ p.dataset_size)
    (hbs : 1 ≤ p.block_size) : (osmBSL0 p).sum = osmReq p := by
  by_cases h : osmLBS p = 0
  · obtain ⟨hbsl, hreq⟩ := osmLBS_zero_struct p hds hbs h
    rw [hbsl, List.sum_const_nat, hreq]
    ring
  · obtain ⟨_, _, hnb1, hbsl, hreq⟩ := osmLBS_ne_struct p hds hbs h
    rw [hbsl, List.sum_append, List.sum_const_nat, hreq]
    simp
    ring

theorem osmBSL0_pos (p : OSMParams) (hds : 1 ≤ p.dataset_size)
    (hbs : 1 ≤ p.block_size) : ∀ x ∈ osmBSL0 p, 1 ≤ x := by
  have hB : 1 ≤ osmBS p := osmBS_pos p hds hbs
  intro x hx
  by_cases h : osmLBS p = 0
  · rw [(osmLBS_zero_struct p hds hbs h).1] at hx
    rw [List.eq_of_mem_replicate hx]
    omega
  · obtain ⟨hL0, _, _, hbsl, _⟩ := osmLBS_ne_struct p hds hbs h
    rw [hbsl] at hx
    rcases List.mem_append.mp hx with h1 | h1
    · rw [List.eq_of_mem_replicate h1]
      omega
    · simp at h1
      omega

/-- Decomposition of a global index below `required_samples` into an
original block number and an in-block offset. -/
theorem osm_decomp (p : OSMParams) (hds : 1 ≤ p.dataset_size)
    (hbs : 1 ≤ p.block_size) {i : Nat} (hi : i < osmReq p) :
    ∃ b pos, b < osmNB p ∧ pos < (osmBSL0 p).getD b 0 ∧
      ((osmBSL0 p).take b).sum = osmBS p * b ∧ osmBS p * b + pos = i := by
  have hB : 1 ≤ osmBS p := osmBS_pos p hds hbs
  by_cases hL : osmLBS p = 0
  · obtain ⟨hbsl, hreq⟩ := osmLBS_zero_struct p hds hbs hL
    have hblt : i / osmBS p < osmNB p := Nat.div_lt_of_lt_mul (by omega)
    refine ⟨i / osmBS p, i % osmBS p, hblt, ?_, ?_, ?_⟩
    · rw [hbsl, getD_replicate_lt hblt]
      exact Nat.mod_lt _ (by omega)
    · rw [hbsl, List.take_replicate, Nat.min_eq_left (by omega),
        List.sum_const_nat]
      ring
    · exact Nat.div_add_mod i (osmBS p)
  · obtain ⟨hL0, hLB, hnb1, hbsl, hreq⟩ := osmLBS_ne_struct p hds hbs hL
    by_cases hiq : i < osmBS p * (osmNB p - 1)
    · have hblt : i / osmBS p < osmNB p - 1 := Nat.div_lt_of_lt_mul (by omega)
      refine ⟨i / osmBS p, i % osmBS p, by omega, ?_, ?_, ?_⟩
      · rw [hbsl, getD_append_left (by simpa using hblt), getD_replicate_lt hblt]
        exact Nat.mod_lt _ (by omega)
      · rw [hbsl, take_append_left_sum (by simp; omega), List.take_replicate,
          Nat.min_eq_left (by omega), List.sum_const_nat]
        ring
      · exact Nat.div_add_mod i (osmBS p)
    · refine ⟨osmNB p - 1, i - osmBS p * (osmNB p - 1), by omega, ?_, ?_, by omega⟩
      · rw [hbsl, getD_append_last (by simp)]
        omega
      · rw [hbsl, take_append_left_sum (by simp), List.take_replicate,
          Nat.min_eq_left (by omega), List.sum_const_nat]
        ring

theorem getSampleBlock_noshuffle (st : OSMState) {b : Nat} (hsh : st.shuffle = false)
    (hb : b < st.num_blocks) :
    getSampleBlock st b =
      .ok ((blockRange st b).map (fun v => v % st.dataset_size)) := by
  unfold getSampleBlock
  rw [if_neg (by omega), hsh]
  simp

theorem map_mod_range'_getD {s n pos ds : Nat} (h : pos < n) :
    ((List.range' s n).map (fun v => v % ds)).getD pos 0 = (s + pos) % ds := by
  rw [List.getD_eq_getElem _ _ (by simpa using h)]
  simp [List.getElem_range'_1]

theorem osmGetIndex_of_lt (st : OSMState) {i : Nat} (hi : i < st.num_samples) :
    osmGetIndex st i = (osmLookup st i).map (fun v => (v, none, none)) := by
  unfold osmGetIndex pyIndex
  rw [if_neg (by omega : ¬((st.num_samples : Int) ≤ (i : Int))),
    if_neg (by omega : ¬((i : Int) < 0)), if_neg (by omega : ¬((i : Int) < 0))]
  simp

def idPerm : Nat → Nat → List Nat := fun _ n => List.range n

/-- C1: with `shuffle=False` and `truncate_to_block_boundary=False`, for every
`dataset_size ≥ 1`, `num_samples ≥ 1` (and a positive `block_size`, which the
constructor requires to divide at all), `__getitem__` resolves every index
`i` in `[0, num_samples)` to dataset index `i % dataset_size`, because block
order is the identity when shuffling is disabled. -/
theorem c1_shuffle_off_resolves_mod (p : OSMParams)
    (hds : 1 ≤ p.dataset_size) (_hns : 1 ≤ p.num_samples) (hbs : 1 ≤ p.block_size)
    (hsh : p.shuffle = false) (htr : p.truncate_to_block_boundary = false)
    {i : Nat} (hi : i < p.num_samples) :
    osmGetIndex (mkState p) i = .ok (i % p.dataset_size, none, none) := by
  obtain ⟨hns2, hreq2, hnb2, hlbs2⟩ := noTrunc_fields p htr
  obtain ⟨hbil, hbsl⟩ := noShuffle_lists p hsh
  have hstns : (mkState p).num_samples = p.num_samples := hns2
  have hireq : i < osmReq p := by
    have hm : osmReq0 p = max p.num_samples p.dataset_size := rfl
    omega
  obtain ⟨b, pos, hb, hpos, hsum, hdec⟩ := osm_decomp p hds hbs hireq
  have hstbsl : (mkState p).block_size_list = osmBSL0 p := hbsl
  have hstbil : (mkState p).block_idx_list = List.range (osmNB p) := hbil
  have hlen : (mkState p).block_size_list.length = (mkState p).num_blocks := by
    rw [hstbsl]
    exact osmBSL0_length p hds hbs
  have hbins : (mkState p).block_bins = cumsum (mkState p).block_size_list := rfl
  have hdig : (mkState p).use_digitize = false →
      ∀ x ∈ (mkState p).block_size_list, x = (mkState p).block_size := by
    intro hud x hx
    have hL : osmLBS p = 0 := by
      have h1 : (osmLBS p != 0) = false := hud
      simpa using h1
    rw [hstbsl, (osmLBS_zero_struct p hds hbs hL).1] at hx
    exact List.eq_of_mem_replicate hx
  have hblt : b < (mkState p).num_blocks := hb
  have hp2 : pos < (mkState p).block_size_list.getD b 0 := by
    rw [hstbsl]
    exact hpos
  have hblk := getSampleBlock_noshuffle (mkState p) hsh hblt
  have hlb : ((blockRange (mkState p) b).map
      (fun v => v % (mkState p).dataset_size)).length =
      (mkState p).block_size_list.getD b 0 := by
    unfold blockRange
    simp
  have hcore := osmLookup_block (mkState p) hlen hbins hdig hblt hp2 hblk hlb
  have hidx : (((mkState p).block_size_list.take b).sum + pos) = i := by
    rw [hstbsl, hsum]
    exact hdec
  rw [hidx] at hcore
  have hstart : (mkState p).block_idx_list.getD b 0 = b := by
    rw [hstbil, List.getD_eq_getElem _ _ (by simpa using hb), List.getElem_range]
  have hval : ((blockRange (mkState p) b).map
      (fun v => v % (mkState p).dataset_size)).getD pos 0 = i % p.dataset_size := by
    unfold blockRange
    rw [map_mod_range'_getD hp2, hstart]
    have hlink : (mkState p).block_size = osmBS p := rfl
    have hds2 : (mkState p).dataset_size = p.dataset_size := rfl
    rw [hlink, hds2, Nat.mul_comm b (osmBS p), hdec]
  rw [hval] at hcore
  rw [osmGetIndex_of_lt (mkState p) (by omega), hcore]
  rfl

/-- Witness for C1 at the spec scenario `dataset_size=10, num_samples=25,
block_size=4`: index 13 resolves to `13 % 10 = 3`. -/
theorem c1_witness :
    osmGetIndex (mkState ⟨10, 25, 4, 2, 1, false, false, idPerm⟩) 13 =
      .ok (3, none, none) :=
  c1_shuffle_off_resolves_mod ⟨10, 25, 4, 2, 1, false, false, idPerm⟩
    (by decide) (by decide) (by decide) rfl rfl (by decide)

/-- C4: `__getitem__` raises `IndexError` for any index at or beyond
`num_samples`; a negative index wraps from the end so that `resolve(-1)`
equals `resolve(num_samples - 1)`; and an index still negative after adding
`num_samples` also raises `IndexError`. -/
theorem c4_boundary_errors (st : OSMState) :
    (∀ idx : Int, (st.num_samples : Int) ≤ idx →
      osmGetIndex st idx = .error "Index out of range") ∧
    osmGetIndex st (-1) = osmGetIndex st ((st.num_samples : Int) - 1) ∧
    (∀ idx : Int, idx + (st.num_samples : Int) < 0 →
      osmGetIndex st idx = .error "Index out of range") := by
  refine ⟨?_, ?_, ?_⟩
  · intro idx h
    unfold osmGetIndex
    rw [if_pos h]
  · by_cases hns : st.num_samples = 0
    · have h1 : ((st.num_samples : Int) - 1) = -1 := by omega
      rw [h1]
    · unfold osmGetIndex pyIndex
      rw [if_neg (by omega : ¬((st.num_samples : Int) ≤ -1)),
        if_neg (by omega : ¬((st.num_samples : Int) ≤ (st.num_samples : Int) - 1)),
        if_pos (by omega : (-1 : Int) < 0),
        if_neg (by omega : ¬((st.num_samples : Int) - 1 < 0)),
        if_neg (by omega : ¬((-1 : Int) + (st.num_samples : Int) < 0)),
        if_neg (by omega : ¬((st.num_samples : Int) - 1 < 0))]
      have harg : ((-1 : Int) + (st.num_samples : Int)).toNat =
          ((st.num_samples : Int) - 1).toNat := by omega
      rw [harg]
  · intro idx h
    unfold osmGetIndex pyIndex
    rw [if_neg (by omega : ¬((st.num_samples : Int) ≤ idx)),
      if_pos (by omega : idx < 0), if_pos h]

/-- Witness for C4 on the spec scenario state: index 25 and index -26 raise,
and index -1 agrees with index 24. -/
theorem c4_witness :
    osmGetIndex (mkState ⟨10, 25, 4, 2, 1, false, false, idPerm⟩) 25 =
        .error "Index out of range" ∧
      osmGetIndex (mkState ⟨10, 25, 4, 2, 1, false, false, idPerm⟩) (-1) =
        osmGetIndex (mkState ⟨10, 25, 4, 2, 1, false, false, idPerm⟩) 24 ∧
      osmGetIndex (mkState ⟨10, 25, 4, 2, 1, false, false, idPerm⟩) (-26) =
        .error "Index out of range" := by
  refine ⟨?_, ?_, ?_⟩
  · exact (c4_boundary_errors (mkState ⟨10, 25, 4, 2, 1, false, false, idPerm⟩)).1
      25 (by decide)
  · have h := (c4_boundary_errors
      (mkState ⟨10, 25, 4, 2, 1, false, false, idPerm⟩)).2.1
    rw [h]
    rfl
  · exact (c4_boundary_errors (mkState ⟨10, 25, 4, 2, 1, false, false, idPerm⟩)).2.2
      (-26) (by decide)

/-! ### Machinery for shuffled states -/

theorem mkState_rng (p : OSMParams) : (mkState p).rngPerm = p.rngPerm := rfl

theorem mkState_seed (p : OSMParams) : (mkState p).seed = p.seed := rfl

theorem getSampleBlock_shuffle (st : OSMState) {b : Nat} (hsh : st.shuffle = true)
    (hb : b < st.num_blocks) :
    getSampleBlock st b = .ok
      (((st.rngPerm (st.seed + b) (st.block_size_list.getD b 0)).map
        (fun j => (blockRange st b).getD j 0)).map (fun v => v % st.dataset_size)) := by
  unfold getSampleBlock
  rw [if_neg (by omega), hsh]
  simp

theorem list_sum_decomp {l : List Nat} {i : Nat} (hi : i < l.sum) :
    ∃ b pos, b < l.length ∧ pos < l.getD b 0 ∧ (l.take b).sum + pos = i := by
  induction l generalizing i with
  | nil => simp at hi
  | cons a t ih =>
    by_cases hia : i < a
    · exact ⟨0, i, by simp, by simpa using hia, by simp⟩
    · have hit : i - a < t.sum := by
        simp only [List.sum_cons] at hi
        omega
      obtain ⟨b, pos, hb, hpos, hsum⟩ := ih hit
      refine ⟨b + 1, pos, by simpa using hb, by simpa using hpos, ?_⟩
      rw [List.take_succ_cons, List.sum_cons]
      omega

theorem map_getD_range {l : List Nat} {n : Nat} (h : l.length = n) :
    (List.range n).map (fun j => l.getD j 0) = l := by
  apply List.ext_getElem
  · simp [h]
  · intro k h1 h2
    simp only [List.getElem_map, List.getElem_range]
    exact List.getD_eq_getElem _ _ h2

theorem osmBSL_eq_of_shuffle (p : OSMParams) (hsh : p.shuffle = true) :
    osmBSL p = (p.rngPerm p.seed (osmNB p)).map (fun j => (osmBSL0 p).getD j 0) := by
  unfold osmBSL
  rw [hsh, if_pos rfl]

theorem osmBIL_eq_of_shuffle (p : OSMParams) (hsh : p.shuffle = true) :
    osmBIL p = (p.rngPerm p.seed (osmNB p)).map
      (fun j => (List.range (osmNB p)).getD j 0) := by
  unfold osmBIL
  rw [hsh, if_pos rfl]

theorem shuffle_eq_false_of_ne (p : OSMParams) (h : ¬p.shuffle = true) :
    p.shuffle = false := by
  revert h
  cases p.shuffle <;> simp

theorem osmBSL_perm (p : OSMParams) (hds : 1 ≤ p.dataset_size)
    (hbs : 1 ≤ p.block_size)
    (hperm : ∀ s n, (p.rngPerm s n).Perm (List.range n)) :
    (osmBSL p).Perm (osmBSL0 p) := by
  by_cases hsh : p.shuffle = true
  · rw [osmBSL_eq_of_shuffle p hsh]
    have h1 := (hperm p.seed (osmNB p)).map (fun j => (osmBSL0 p).getD j 0)
    rw [map_getD_range (osmBSL0_length p hds hbs)] at h1
    exact h1
  · rw [(noShuffle_lists p (shuffle_eq_false_of_ne p hsh)).2]

theorem osmBSL_length (p : OSMParams) (hds : 1 ≤ p.dataset_size)
    (hbs : 1 ≤ p.block_size)
    (hperm : ∀ s n, (p.rngPerm s n).Perm (List.range n)) :
    (osmBSL p).length = osmNB p := by
  rw [(osmBSL_perm p hds hbs hperm).length_eq]
  exact osmBSL0_length p hds hbs

theorem osmBSL_sum (p : OSMParams) (hds : 1 ≤ p.dataset_size)
    (hbs : 1 ≤ p.block_size)
    (hperm : ∀ s n, (p.rngPerm s n).Perm (List.range n)) :
    (osmBSL p).sum = osmReq p := by
  rw [(osmBSL_perm p hds hbs hperm).sum_eq]
  exact osmBSL0_sum p hds hbs

theorem mkState_dig (p : OSMParams) (hds : 1 ≤ p.dataset_size)
    (hbs : 1 ≤ p.block_size)
    (hperm : ∀ s n, (p.rngPerm s n).Perm (List.range n)) :
    (mkState p).use_digitize = false →
      ∀ x ∈ (mkState p).block_size_list, x = (mkState p).block_size := by
  intro hud x hx
  have hud2 : (osmLBS p != 0) = false := hud
  have hL : osmLBS p = 0 := by simpa using hud2
  have hx0 : x ∈ osmBSL0 p := ((osmBSL_perm p hds hbs hperm).mem_iff).mp hx
  rw [(osmLBS_zero_struct p hds hbs hL).1] at hx0
  exact List.eq_of_mem_replicate hx0

/-- Every global index below `required_samples` resolves through the block
machinery without an error: the blocks tile `[0, required_samples)`. -/
theorem osmLookup_total (p : OSMParams) (hds : 1 ≤ p.dataset_size)
    (hbs : 1 ≤ p.block_size)
    (hperm : ∀ s n, (p.rngPerm s n).Perm (List.range n))
    {i : Nat} (hi : i < osmReq p) :
    ∃ v, osmLookup (mkState p) i = .ok v := by
  have hsum : ((mkState p).block_size_list).sum = osmReq p := osmBSL_sum p hds hbs hperm
  have hilt : i < ((mkState p).block_size_list).sum := by omega
  obtain ⟨b, pos, hb, hpos, hdecsum⟩ := list_sum_decomp hilt
  have hlen : (mkState p).block_size_list.length = (mkState p).num_blocks := by
    have h1 : (mkState p).block_size_list = osmBSL p := rfl
    rw [h1]
    exact osmBSL_length p hds hbs hperm
  have hbins : (mkState p).block_bins = cumsum (mkState p).block_size_list := rfl
  have hdig := mkState_dig p hds hbs hperm
  have hbnb : b < (mkState p).num_blocks := by omega
  by_cases hsh : p.shuffle = true
  · have hblk := getSampleBlock_shuffle (mkState p) hsh hbnb
    rw [mkState_rng, mkState_seed] at hblk
    have hlb : (((p.rngPerm (p.seed + b)
        ((mkState p).block_size_list.getD b 0)).map
          (fun j => (blockRange (mkState p) b).getD j 0)).map
            (fun v => v % (mkState p).dataset_size)).length =
        (mkState p).block_size_list.getD b 0 := by
      simp only [List.length_map]
      rw [(hperm _ _).length_eq, List.length_range]
    have hcore := osmLookup_block (mkState p) hlen hbins hdig hbnb hpos hblk hlb
    rw [hdecsum] at hcore
    exact ⟨_, hcore⟩
  · have hshf := shuffle_eq_false_of_ne p hsh
    have hblk := getSampleBlock_noshuffle (mkState p) hshf hbnb
    have hlb : ((blockRange (mkState p) b).map
        (fun v => v % (mkState p).dataset_size)).length =
        (mkState p).block_size_list.getD b 0 := by
      unfold blockRange
      simp
    have hcore := osmLookup_block (mkState p) hlen hbins hdig hbnb hpos hblk hlb
    rw [hdecsum] at hcore
    exact ⟨_, hcore⟩

/-- For every original block `o` and in-block offset, some global index below
`required_samples` resolves to the corresponding projected dataset index:
shuffling permutes blocks and block contents but loses nothing. -/
theorem osmLookup_hits (p : OSMParams) (hds : 1 ≤ p.dataset_size)
    (hbs : 1 ≤ p.block_size)
    (hperm : ∀ s n, (p.rngPerm s n).Perm (List.range n))
    {o pos0 : Nat} (ho : o < osmNB p) (hpos0 : pos0 < (osmBSL0 p).getD o 0) :
    ∃ i, i < osmReq p ∧
      osmLookup (mkState p) i = .ok ((osmBS p * o + pos0) % p.dataset_size) := by
  have hlen : (mkState p).block_size_list.length = (mkState p).num_blocks := by
    have h1 : (mkState p).block_size_list = osmBSL p := rfl
    rw [h1]
    exact osmBSL_length p hds hbs hperm
  have hbins : (mkState p).block_bins = cumsum (mkState p).block_size_list := rfl
  have hdig := mkState_dig p hds hbs hperm
  have hsumreq : ((mkState p).block_size_list).sum = osmReq p := osmBSL_sum p hds hbs hperm
  by_cases hsh : p.shuffle = true
  · -- locate the shuffled position of block o
    have hrperm := hperm p.seed (osmNB p)
    have hoin : o ∈ p.rngPerm p.seed (osmNB p) := by
      rw [hrperm.mem_iff, List.mem_range]
      exact ho
    obtain ⟨b, hblen, hbo⟩ := List.getElem_of_mem hoin
    have hrlen : (p.rngPerm p.seed (osmNB p)).length = osmNB p := by
      rw [hrperm.length_eq, List.length_range]
    have hbnb : b < (mkState p).num_blocks := by
      have : (mkState p).num_blocks = osmNB p := rfl
      omega
    -- the stored block index and size at position b
    have hbilb : (mkState p).block_idx_list.getD b 0 = o := by
      have h1 : (mkState p).block_idx_list = osmBIL p := rfl
      rw [h1, osmBIL_eq_of_shuffle p hsh,
        List.getD_eq_getElem _ _ (by rw [List.length_map]; omega)]
      rw [List.getElem_map]
      rw [hbo]
      rw [List.getD_eq_getElem _ _ (by rw [List.length_range]; exact ho),
        List.getElem_range]
    have hbslb : (mkState p).block_size_list.getD b 0 = (osmBSL0 p).getD o 0 := by
      have h1 : (mkState p).block_size_list = osmBSL p := rfl
      rw [h1, osmBSL_eq_of_shuffle p hsh,
        List.getD_eq_getElem _ _ (by rw [List.length_map]; omega)]
      rw [List.getElem_map, hbo]
    -- locate the in-block position of offset pos0
    have hr2perm := hperm (p.seed + b) ((mkState p).block_size_list.getD b 0)
    have hpos0in : pos0 ∈ p.rngPerm (p.seed + b) ((mkState p).block_size_list.getD b 0) := by
      rw [hr2perm.mem_iff, List.mem_range, hbslb]
      exact hpos0
    obtain ⟨pos, hplen, hppos⟩ := List.getElem_of_mem hpos0in
    have hr2len : (p.rngPerm (p.seed + b) ((mkState p).block_size_list.getD b 0)).length =
        (mkState p).block_size_list.getD b 0 := by
      rw [hr2perm.length_eq, List.length_range]
    have hposlt : pos < (mkState p).block_size_list.getD b 0 := by omega
    have hblk := getSampleBlock_shuffle (mkState p) hsh hbnb
    rw [mkState_rng, mkState_seed] at hblk
    have hlb : (((p.rngPerm (p.seed + b)
        ((mkState p).block_size_list.getD b 0)).map
          (fun j => (blockRange (mkState p) b).getD j 0)).map
            (fun v => v % (mkState p).dataset_size)).length =
        (mkState p).block_size_list.getD b 0 := by
      simp only [List.length_map]
      exact hr2len
    have hcore := osmLookup_block (mkState p) hlen hbins hdig hbnb hposlt hblk hlb
    refine ⟨((mkState p).block_size_list.take b).sum + pos, ?_, ?_⟩
    · have h1 : (((mkState p).block_size_list.take (b + 1)).sum ≤
          ((mkState p).block_size_list).sum) := sum_take_le_sum (b + 1)
      have h2 := sum_take_succ (l := (mkState p).block_size_list) (b := b) (by omega)
      have h3 : (mkState p).block_size_list[b] = (mkState p).block_size_list.getD b 0 :=
        (List.getD_eq_getElem _ _ (by omega)).symm
      omega
    · rw [hcore]
      congr 1
      -- the block element at the permuted offset
      rw [List.getD_eq_getElem _ _ (by simp only [List.length_map]; omega)]
      rw [List.getElem_map]
      rw [List.getElem_map]
      rw [hppos]
      have hbrange : blockRange (mkState p) b =
          List.range' (o * osmBS p) ((osmBSL0 p).getD o 0) := by
        unfold blockRange
        rw [hbilb, hbslb]
        rfl
      rw [hbrange]
      rw [List.getD_eq_getElem _ _ (by rw [List.length_range']; omega)]
      rw [List.getElem_range'_1]
      have hmc : o * osmBS p = osmBS p * o := Nat.mul_comm _ _
      rw [hmc]
      rfl
  · -- no shuffling: block o sits at position o
    have hshf := shuffle_eq_false_of_ne p hsh
    obtain ⟨hbil, hbsl⟩ := noShuffle_lists p hshf
    have hbnb : o < (mkState p).num_blocks := ho
    have hstbsl : (mkState p).block_size_list = osmBSL0 p := hbsl
    have hposlt : pos0 < (mkState p).block_size_list.getD o 0 := by
      rw [hstbsl]
      exact hpos0
    have hblk := getSampleBlock_noshuffle (mkState p) hshf hbnb
    have hlb : ((blockRange (mkState p) o).map
        (fun v => v % (mkState p).dataset_size)).length =
        (mkState p).block_size_list.getD o 0 := by
      unfold blockRange
      simp
    have hcore := osmLookup_block (mkState p) hlen hbins hdig hbnb hposlt hblk hlb
    refine ⟨((mkState p).block_size_list.take o).sum + pos0, ?_, ?_⟩
    · have h1 : (((mkState p).block_size_list.take (o + 1)).sum ≤
          ((mkState p).block_size_list).sum) := sum_take_le_sum (o + 1)
      have h2 := sum_take_succ (l := (mkState p).block_size_list) (b := o) (by omega)
      have h3 : (mkState p).block_size_list[o] = (mkState p).block_size_list.getD o 0 :=
        (List.getD_eq_getElem _ _ (by omega)).symm
      omega
    · rw [hcore]
      congr 1
      have hstart : (mkState p).block_idx_list.getD o 0 = o := by
        have h1 : (mkState p).block_idx_list = List.range (osmNB p) := hbil
        rw [h1, List.getD_eq_getElem _ _ (by rw [List.length_range]; exact ho),
          List.getElem_range]
      unfold blockRange
      rw [hstart]
      have hpm : pos0 < ((mkState p).block_size_list.getD o 0) := hposlt
      rw [map_mod_range'_getD hpm]
      have hmc : o * (mkState p).block_size = osmBS p * o := Nat.mul_comm _ _
      rw [hmc]
      rfl

def revPerm : Nat → Nat → List Nat := fun _ n => (List.range n).reverse

/-- C2 counterexample: with `dataset_size=2, num_samples=1` (down-sampling,
`truncate_to_block_boundary=False`), the dataset index 1 is never returned by
`__getitem__` for any input index in `[0, max(num_samples, dataset_size))`:
index 1 is rejected by the `num_samples` range check. -/
theorem c2_counterexample :
    ¬ ∃ i < 2, osmGetIndex (mkState ⟨2, 1, 2, 2, 1, false, false, idPerm⟩)
      (i : Nat) = .ok (1, none, none) := by decide

/-- C2 (amended): with `truncate_to_block_boundary=False`, every dataset
index `d` in `[0, dataset_size)` is produced by the block-level resolution
(`osmLookup`, the `__getitem__` computation without its `num_samples` range
check) at some index `i` in `[0, max(num_samples, dataset_size))`; when
`num_samples ≥ dataset_size` that index is valid, so `__getitem__` itself
returns `d`.  In the down-sampling case `num_samples < dataset_size` the
range check rejects the indices at or beyond `num_samples`, so coverage
through `__getitem__` alone fails (see the counterexample). -/
theorem c2_coverage (p : OSMParams)
    (hds : 1 ≤ p.dataset_size) (hbs : 1 ≤ p.block_size)
    (htr : p.truncate_to_block_boundary = false)
    (hperm : ∀ s n, (p.rngPerm s n).Perm (List.range n))
    {d : Nat} (hd : d < p.dataset_size) :
    ∃ i, i < max p.num_samples p.dataset_size ∧
      osmLookup (mkState p) i = .ok d ∧
      (p.dataset_size ≤ p.num_samples →
        osmGetIndex (mkState p) i = .ok (d, none, none)) := by
  obtain ⟨hns2, hreq2, hnb2, hlbs2⟩ := noTrunc_fields p htr
  have hr0 : osmReq0 p = max p.num_samples p.dataset_size := rfl
  have hdreq : d < osmReq p := by omega
  obtain ⟨o, pos0, ho, hpos0, hsum0, hdec0⟩ := osm_decomp p hds hbs hdreq
  obtain ⟨i, hir, hlook⟩ := osmLookup_hits p hds hbs hperm ho hpos0
  rw [hdec0, Nat.mod_eq_of_lt hd] at hlook
  refine ⟨i, by omega, hlook, ?_⟩
  intro hdsns
  have hns3 : (mkState p).num_samples = p.num_samples := hns2
  have hins : i < (mkState p).num_samples := by omega
  rw [osmGetIndex_of_lt (mkState p) hins, hlook]
  rfl

/-- Witness for C2 on a shuffled down-sampling instance
(`dataset_size=5, num_samples=3, block_size=2, shuffle=True`). -/
theorem c2_witness :
    ∃ i, i < max 3 5 ∧
      osmLookup (mkState ⟨5, 3, 2, 2, 7, true, false, revPerm⟩) i = .ok 4 ∧
      (5 ≤ 3 → osmGetIndex (mkState ⟨5, 3, 2, 2, 7, true, false, revPerm⟩) i =
        .ok (4, none, none)) :=
  c2_coverage ⟨5, 3, 2, 2, 7, true, false, revPerm⟩ (by decide) (by decide) rfl
    (fun _ n => List.reverse_perm (List.range n)) (by decide)

/-- Every successful integer `__getitem__` result has the 3-tuple shape
`(sample_idx, None, None)`. -/
theorem osmGetIndex_ok_shape (st : OSMState) {idx : Int}
    {r : Nat × Option Nat × Option Nat} (h : osmGetIndex st idx = .ok r) :
    ∃ v, r = (v, none, none) := by
  unfold osmGetIndex at h
  split at h
  · exact Except.noConfusion h
  · split at h
    · exact Except.noConfusion h
    · cases hl : osmLookup st (pyIndex st.num_samples idx).toNat with
      | error e =>
        rw [hl] at h
        simp [Except.map] at h
      | ok v =>
        rw [hl] at h
        simp only [Except.map] at h
        exact ⟨v, (Except.ok.inj h).symm⟩

/-- Every element of a successful slice result has the 3-tuple shape. -/
theorem mapGetIndex_ok_shape (st : OSMState) :
    ∀ (xs : List Int) (l : List (Nat × Option Nat × Option Nat)),
      mapGetIndex st xs = .ok l → ∀ x ∈ l, ∃ v, x = (v, none, none) := by
  intro xs
  induction xs with
  | nil =>
    intro l h x hx
    unfold mapGetIndex at h
    have hl : l = [] := (Except.ok.inj h).symm
    subst hl
    exact absurd hx (List.not_mem_nil x)
  | cons a rest ih =>
    intro l h x hx
    unfold mapGetIndex at h
    cases hga : osmGetIndex st a with
    | error e =>
      rw [hga] at h
      simp at h
    | ok v =>
      rw [hga] at h
      cases hgr : mapGetIndex st rest with
      | error e =>
        rw [hgr] at h
        simp at h
      | ok vs =>
        rw [hgr] at h
        simp only [] at h
        have hl : l = v :: vs := (Except.ok.inj h).symm
        subst hl
        rcases List.mem_cons.mp hx with hx1 | hx2
        · subst hx1
          exact osmGetIndex_ok_shape st hga
        · exact ih vs hgr x hx2

/-- C9 counterexample: `dataset_size=10, num_samples=9, block_size=4,
truncate_to_block_boundary=True` leaves `num_samples = 9` above the truncated
`required_samples = 8`; the valid index 8 then raises the internal
`get_sample_block` `IndexError` instead of returning a 3-tuple. -/
theorem c9_counterexample :
    (mkState ⟨10, 9, 4, 2, 1, false, true, idPerm⟩).num_samples = 9 ∧
      osmGetIndex (mkState ⟨10, 9, 4, 2, 1, false, true, idPerm⟩) 8 =
        .error "block_idx is out of range" := by
  exact ⟨rfl, rfl⟩

/-- C9 (amended): whenever `num_samples ≤ required_samples` (always the case
for `truncate_to_block_boundary=False`), `__getitem__` on a valid integer
index returns the 3-tuple `(dataset_index, None, None)` — never a bare
integer — whose first component is the resolved dataset index; and every
element of a successful slice result has the same 3-tuple shape.  When
truncation leaves `num_samples > required_samples`, a tail of valid indices
raises instead (see the counterexample). -/
theorem c9_tuple_shape (p : OSMParams)
    (hds : 1 ≤ p.dataset_size) (hbs : 1 ≤ p.block_size)
    (hperm : ∀ s n, (p.rngPerm s n).Perm (List.range n))
    (hnsreq : (mkState p).num_samples ≤ (mkState p).required_samples) :
    (∀ idx : Int, 0 ≤ idx → idx < ((mkState p).num_samples : Int) →
      ∃ v, osmGetIndex (mkState p) idx = .ok (v, none, none) ∧
        osmLookup (mkState p) idx.toNat = .ok v) ∧
    (∀ a b c l, osmGetSlice (mkState p) a b c = .ok l →
      ∀ x ∈ l, ∃ v, x = (v, none, none)) := by
  constructor
  · intro idx h0 hlt
    obtain ⟨n, rfl⟩ : ∃ n : Nat, idx = (n : Int) := ⟨idx.toNat, by omega⟩
    have hnlt : n < (mkState p).num_samples := by exact_mod_cast hlt
    have hreqfact : (mkState p).required_samples = osmReq p := rfl
    obtain ⟨v, hv⟩ := osmLookup_total p hds hbs hperm (i := n) (by omega)
    refine ⟨v, ?_, ?_⟩
    · rw [osmGetIndex_of_lt (mkState p) hnlt, hv]
      rfl
    · have htn : ((n : Int)).toNat = n := by omega
      rw [htn]
      exact hv
  · intro a b c l hsl x hx
    simp only [osmGetSlice] at hsl
    exact mapGetIndex_ok_shape (mkState p) _ l hsl x hx

/-- Witness for C9 at the spec scenario instance: index 5 yields a 3-tuple. -/
theorem c9_witness :
    ∃ v, osmGetIndex (mkState ⟨10, 25, 4, 2, 1, false, false, idPerm⟩) 5 =
        .ok (v, none, none) ∧
      osmLookup (mkState ⟨10, 25, 4, 2, 1, false, false, idPerm⟩)
        ((5 : Int)).toNat = .ok v :=
  (c9_tuple_shape ⟨10, 25, 4, 2, 1, false, false, idPerm⟩ (by decide) (by decide)
    (fun _ n => List.Perm.refl _) (by decide)).1 5 (by decide) (by decide)

/-! ### The lru_cache wrapper never changes results (C3) -/

theorem getSampleBlockCached_spec (st : OSMState) (c : BlockCache) (k : Nat)
    (h : cacheCoherent st c) :
    (getSampleBlockCached st c k).1 = getSampleBlock st k ∧
      cacheCoherent st (getSampleBlockCached st c k).2 := by
  unfold getSampleBlockCached
  cases hf : c.find? (fun e => e.1 == k) with
  | some e =>
    have hmem : e ∈ c := List.mem_of_find?_eq_some hf
    have hpe := List.find?_some hf
    have hek : e.1 = k := by simpa using hpe
    have hge : getSampleBlock st k = .ok e.2 := by
      rw [← hek]
      exact h e hmem
    refine ⟨hge.symm, ?_⟩
    intro e2 he2
    rcases List.mem_cons.mp he2 with h1 | h1
    · rw [h1]
      exact hge
    · exact h e2 (List.Sublist.mem h1 (List.eraseP_sublist c))
  | none =>
    cases hg : getSampleBlock st k with
    | ok v =>
      refine ⟨rfl, ?_⟩
      intro e2 he2
      have hmem2 : e2 ∈ (k, v) :: c :=
        List.Sublist.mem he2 (List.take_sublist st.cache_maxsize ((k, v) :: c))
      rcases List.mem_cons.mp hmem2 with h1 | h1
      · rw [h1]
        exact hg
      · exact h e2 h1
    | error e => exact ⟨rfl, h⟩

theorem osmLookupCached_spec (st : OSMState) (c : BlockCache) (i : Nat)
    (h : cacheCoherent st c) :
    (osmLookupCached st c i).1 = osmLookup st i ∧
      cacheCoherent st (osmLookupCached st c i).2 := by
  have hspec := getSampleBlockCached_spec st c (blockIdxOf st i) h
  refine ⟨?_, hspec.2⟩
  show lookupInBlock st i (getSampleBlockCached st c (blockIdxOf st i)).1 =
    osmLookup st i
  rw [hspec.1]
  rfl

theorem osmGetIndexCached_spec (st : OSMState) (c : BlockCache) (idx : Int)
    (h : cacheCoherent st c) :
    (osmGetIndexCached st c idx).1 = osmGetIndex st idx ∧
      cacheCoherent st (osmGetIndexCached st c idx).2 := by
  by_cases hc1 : (st.num_samples : Int) ≤ idx
  · simp only [osmGetIndexCached, osmGetIndex, if_pos hc1]
    exact ⟨by trivial, h⟩
  · by_cases hc2 : pyIndex st.num_samples idx < 0
    · simp only [osmGetIndexCached, osmGetIndex, if_neg hc1, if_pos hc2]
      exact ⟨by trivial, h⟩
    · simp only [osmGetIndexCached, osmGetIndex, if_neg hc1, if_neg hc2]
      have hspec := osmLookupCached_spec st c (pyIndex st.num_samples idx).toNat h
      refine ⟨?_, hspec.2⟩
      rw [hspec.1]

/-- C3: `OnlineSampleMapping` is deterministic.  In the embedding the state
is a pure function of the constructor parameters, so two instances built
from identical parameters are the same state; the theorem shows the part
that is not definitional: `__getitem__` through the bounded `lru_cache`
returns the same value for ANY coherent cache contents (any two instances,
any eviction history), namely the value of the cache-free computation, and
each call leaves the cache coherent — blocks are recomputed deterministically
from `seed + block_idx`, so eviction never changes results. -/
theorem c3_cache_determinism (st : OSMState) (c1 c2 : BlockCache)
    (h1 : cacheCoherent st c1) (h2 : cacheCoherent st c2) (idx : Int) :
    (osmGetIndexCached st c1 idx).1 = osmGetIndex st idx ∧
    (osmGetIndexCached st c1 idx).1 = (osmGetIndexCached st c2 idx).1 ∧
    cacheCoherent st (osmGetIndexCached st c1 idx).2 := by
  have hA := osmGetIndexCached_spec st c1 idx h1
  have hB := osmGetIndexCached_spec st c2 idx h2
  refine ⟨hA.1, ?_, hA.2⟩
  rw [hA.1, hB.1]

/-- Witness for C3: a fresh cache and a warm cache agree on the scenario
instance. -/
theorem c3_witness :
    (osmGetIndexCached (mkState ⟨10, 25, 4, 2, 1, false, false, idPerm⟩) [] 7).1 =
        osmGetIndex (mkState ⟨10, 25, 4, 2, 1, false, false, idPerm⟩) 7 ∧
      (osmGetIndexCached (mkState ⟨10, 25, 4, 2, 1, false, false, idPerm⟩) [] 7).1 =
        (osmGetIndexCached (mkState ⟨10, 25, 4, 2, 1, false, false, idPerm⟩)
          [(0, [0, 1, 2, 3])] 7).1 ∧
      cacheCoherent (mkState ⟨10, 25, 4, 2, 1, false, false, idPerm⟩)
        (osmGetIndexCached (mkState ⟨10, 25, 4, 2, 1, false, false, idPerm⟩) [] 7).2 :=
  c3_cache_determinism (mkState ⟨10, 25, 4, 2, 1, false, false, idPerm⟩) []
    [(0, [0, 1, 2, 3])]
    (fun e he => absurd he (List.not_mem_nil e))
    (fun e he => by
      rcases List.mem_cons.mp he with h1 | h1
      · rw [h1]
        rfl
      · exact absurd h1 (List.not_mem_nil e))
    7

/-! ### Reconstruction from the __reduce__ parameters (C7) -/

theorem doTrunc_false_fields (p : OSMParams) (h : osmDoTrunc p = false) :
    osmNS p = p.num_samples ∧ osmNB p = osmNB0 p ∧ osmReq p = osmReq0 p ∧
      osmLBS p = osmLBS0 p := by
  unfold osmNS osmNB osmReq osmLBS
  rw [h]
  simp

theorem doTrunc_true_nb (p : OSMParams) (h : osmDoTrunc p = true) :
    osmNB p = osmNB0 p - 1 := by
  unfold osmNB
  rw [h]
  simp

theorem doTrunc_true_req (p : OSMParams) (h : osmDoTrunc p = true) :
    osmReq p = osmReq0 p - osmLBS0 p := by
  unfold osmReq
  rw [h]
  simp

theorem doTrunc_true_lbs (p : OSMParams) (h : osmDoTrunc p = true) :
    osmLBS p = 0 := by
  unfold osmLBS
  rw [h]
  simp

theorem doTrunc_true_ns_eq (p : OSMParams) (h : osmDoTrunc p = true)
    (h2 : osmReq0 p = p.num_samples) :
    osmNS p = p.num_samples - osmLBS0 p := by
  unfold osmNS
  rw [h, h2]
  simp

theorem doTrunc_true_ns_ne (p : OSMParams) (h : osmDoTrunc p = true)
    (h2 : osmReq0 p ≠ p.num_samples) :
    osmNS p = p.num_samples := by
  unfold osmNS
  rw [h]
  simp [h2]

theorem doTrunc_true_parts (p : OSMParams) (h : osmDoTrunc p = true) :
    p.truncate_to_block_boundary = true ∧ osmLBS0 p ≠ 0 := by
  unfold osmDoTrunc at h
  simp at h
  exact h

/-- The derived quantities computed by `__init__` from the adjusted
parameters recorded by `__reduce__` agree with the original ones. -/
theorem osm_reduce_fields (p : OSMParams) (hds : 1 ≤ p.dataset_size)
    (hbs : 1 ≤ p.block_size) :
    osmBS (osmReduceParams (mkState p)) = osmBS p ∧
    osmNS (osmReduceParams (mkState p)) = osmNS p ∧
    osmNB (osmReduceParams (mkState p)) = osmNB p ∧
    osmReq (osmReduceParams (mkState p)) = osmReq p ∧
    osmLBS (osmReduceParams (mkState p)) = osmLBS p := by
  set q := osmReduceParams (mkState p) with hqdef
  have hpds : q.dataset_size = p.dataset_size := rfl
  have hpns : q.num_samples = osmNS p := rfl
  have hpbs : q.block_size = osmBS p := rfl
  have hptr : q.truncate_to_block_boundary = p.truncate_to_block_boundary := rfl
  have hBle := osmBS_le p
  have hBpos := osmBS_pos p hds hbs
  have hB2 : osmBS q = osmBS p := by
    unfold osmBS
    rw [hpbs, hpds]
    exact Nat.min_eq_left hBle
  have hR0d : osmReq0 q = max (osmNS p) p.dataset_size := by
    unfold osmReq0
    rw [hpns, hpds]
  have hL0d : osmLBS0 q = osmReq0 q % osmBS p := by
    unfold osmLBS0
    rw [hB2]
  have hN0d : osmNB0 q = ceilDiv (osmReq0 q) (osmBS p) := by
    unfold osmNB0
    rw [hB2]
  have hDTd : osmDoTrunc q = (p.truncate_to_block_boundary && (osmLBS0 q != 0)) := by
    unfold osmDoTrunc
    rw [hptr]
  cases hT : osmDoTrunc p with
  | false =>
    obtain ⟨hNSp, hNBp, hReqp, hLp⟩ := doTrunc_false_fields p hT
    have hR0eq : osmReq0 q = osmReq0 p := by
      rw [hR0d, hNSp]
      rfl
    have hL0eq : osmLBS0 q = osmLBS0 p := by
      rw [hL0d, hR0eq]
      rfl
    have hN0eq : osmNB0 q = osmNB0 p := by
      rw [hN0d, hR0eq]
      rfl
    have hDTeq : osmDoTrunc q = false := by
      rw [hDTd, hL0eq]
      exact hT
    obtain ⟨hNSq, hNBq, hReqq, hLq⟩ := doTrunc_false_fields q hDTeq
    refine ⟨hB2, ?_, ?_, ?_, ?_⟩
    · rw [hNSq, hpns]
    · rw [hNBq, hN0eq, hNBp]
    · rw [hReqq, hR0eq, hReqp]
    · rw [hLq, hL0eq, hLp]
  | true =>
    obtain ⟨htrT, hL0ne⟩ := doTrunc_true_parts p hT
    have hNBp : osmNB p = osmNB0 p - 1 := doTrunc_true_nb p hT
    have hReqp : osmReq p = osmReq0 p - osmLBS0 p := doTrunc_true_req p hT
    have hLp : osmLBS p = 0 := doTrunc_true_lbs p hT
    have hL0ne2 : osmReq0 p % osmBS p ≠ 0 := hL0ne
    have hN0 : osmNB0 p = osmReq0 p / osmBS p + 1 :=
      ceilDiv_of_mod_ne_zero hBpos hL0ne2
    have hdm2 : osmBS p * (osmReq0 p / osmBS p) + osmLBS0 p = osmReq0 p :=
      Nat.div_add_mod (osmReq0 p) (osmBS p)
    have hLlt : osmLBS0 p < osmBS p := Nat.mod_lt _ hBpos
    by_cases hRn : osmReq0 p = p.num_samples
    · have hNSp : osmNS p = p.num_samples - osmLBS0 p := doTrunc_true_ns_eq p hT hRn
      obtain ⟨X, hX⟩ : ∃ X, osmBS p * (osmReq0 p / osmBS p) = X := ⟨_, rfl⟩
      rw [hX] at hdm2
      have hq2 : p.num_samples - osmLBS0 p = X := by omega
      by_cases hdsq : p.dataset_size ≤ X
      · have hR0i : osmReq0 q = X := by
          rw [hR0d, hNSp, hq2]
          exact Nat.max_eq_left hdsq
        have hL0i : osmLBS0 q = 0 := by
          rw [hL0d, hR0i, ← hX]
          exact Nat.mul_mod_right _ _
        have hDTi : osmDoTrunc q = false := by
          rw [hDTd, hL0i]
          simp
        obtain ⟨hNSq, hNBq, hReqq, hLq⟩ := doTrunc_false_fields q hDTi
        have hN0i : osmNB0 q = osmReq0 p / osmBS p := by
          rw [hN0d, hR0i, ← hX,
            ceilDiv_of_mod_eq_zero hBpos (Nat.mul_mod_right _ _)]
          exact Nat.mul_div_cancel_left _ hBpos
        refine ⟨hB2, ?_, ?_, ?_, ?_⟩
        · rw [hNSq, hpns]
        · rw [hNBq, hN0i, hNBp, hN0, Nat.add_sub_cancel]
        · rw [hReqq, hR0i, hReqp]
          omega
        · rw [hLq, hL0i, hLp]
      · push_neg at hdsq
        have hR0ii : osmReq0 q = p.dataset_size := by
          rw [hR0d, hNSp, hq2]
          exact Nat.max_eq_right (Nat.le_of_lt hdsq)
        have hdsns : p.dataset_size ≤ p.num_samples := by
          have h1 : p.dataset_size ≤ osmReq0 p := Nat.le_max_right _ _
          omega
        have hrle : p.dataset_size - X ≤ osmLBS0 p := by omega
        have hds2 : p.dataset_size = X + (p.dataset_size - X) := by omega
        have hmod : p.dataset_size % osmBS p = p.dataset_size - X := by
          conv_lhs => rw [hds2]
          nth_rewrite 1 [← hX]
          rw [Nat.mul_add_mod, Nat.mod_eq_of_lt (by omega)]
        have hdiv : p.dataset_size / osmBS p = osmReq0 p / osmBS p := by
          conv_lhs => rw [hds2]
          nth_rewrite 1 [← hX]
          rw [Nat.mul_add_div hBpos,
            Nat.div_eq_of_lt (show p.dataset_size - X < osmBS p by omega),
            Nat.add_zero]
        have hL0ii : osmLBS0 q = p.dataset_size - X := by
          rw [hL0d, hR0ii, hmod]
        have hL0iine : osmLBS0 q ≠ 0 := by omega
        have hDTii : osmDoTrunc q = true := by
          rw [hDTd, htrT]
          simp only [Bool.true_and]
          simpa using hL0iine
        have hNScond : osmReq0 q ≠ q.num_samples := by
          rw [hR0ii, hpns, hNSp, hq2]
          omega
        have hN0ii : osmNB0 q = osmReq0 p / osmBS p + 1 := by
          rw [hN0d, hR0ii, ceilDiv_of_mod_ne_zero hBpos (by rw [hmod]; omega), hdiv]
        refine ⟨hB2, ?_, ?_, ?_, ?_⟩
        · rw [doTrunc_true_ns_ne q hDTii hNScond, hpns]
        · rw [doTrunc_true_nb q hDTii, hN0ii, Nat.add_sub_cancel, hNBp, hN0,
            Nat.add_sub_cancel]
        · rw [doTrunc_true_req q hDTii, hR0ii, hL0ii, hReqp]
          omega
        · rw [doTrunc_true_lbs q hDTii, hLp]
    · have hNSp : osmNS p = p.num_samples := doTrunc_true_ns_ne p hT hRn
      have hR0eq : osmReq0 q = osmReq0 p := by
        rw [hR0d, hNSp]
        rfl
      have hL0eq : osmLBS0 q = osmLBS0 p := by
        rw [hL0d, hR0eq]
        rfl
      have hN0eq : osmNB0 q = osmNB0 p := by
        rw [hN0d, hR0eq]
        rfl
      have hDTeq : osmDoTrunc q = true := by
        rw [hDTd, hL0eq]
        exact hT
      have hNScond : osmReq0 q ≠ q.num_samples := by
        rw [hR0eq, hpns, hNSp]
        exact hRn
      refine ⟨hB2, ?_, ?_, ?_, ?_⟩
      · rw [doTrunc_true_ns_ne q hDTeq hNScond, hpns]
      · rw [doTrunc_true_nb q hDTeq, hN0eq, hNBp]
      · rw [doTrunc_true_req q hDTeq, hR0eq, hL0eq, hReqp]
      · rw [doTrunc_true_lbs q hDTeq, hLp]

/-- Rebuilding the state from the parameters recorded by `__reduce__`
reproduces the state exactly. -/
theorem mkState_reduce (p : OSMParams) (hds : 1 ≤ p.dataset_size)
    (hbs : 1 ≤ p.block_size) :
    mkState (osmReduceParams (mkState p)) = mkState p := by
  obtain ⟨hbseq, hnseq, hnbeq, hreqeq, hlbseq⟩ := osm_reduce_fields p hds hbs
  set q := osmReduceParams (mkState p) with hqdef
  have hsh : q.shuffle = p.shuffle := rfl
  have hrng : q.rngPerm = p.rngPerm := rfl
  have hseed : q.seed = p.seed := rfl
  have hbsl0eq : osmBSL0 q = osmBSL0 p := by
    unfold osmBSL0
    rw [hlbseq, hnbeq, hbseq]
  have hbileq : osmBIL q = osmBIL p := by
    unfold osmBIL
    rw [hnbeq, hsh, hrng, hseed]
  have hbsleq : osmBSL q = osmBSL p := by
    unfold osmBSL
    rw [hnbeq, hbsl0eq, hsh, hrng, hseed]
  unfold mkState
  rw [OSMState.mk.injEq]
  refine ⟨rfl, hnseq, hbseq, rfl, rfl, rfl, rfl, rfl, hreqeq, hnbeq, ?_, hbileq,
    hbsleq, ?_⟩
  · rw [hlbseq]
  · rw [hbsleq]

/-- C7: reconstructing an `OnlineSampleMapping` from the constructor
parameters captured by `__reduce__` — including the clamped `block_size` and
the possibly truncated `num_samples` — yields an instance whose
`__getitem__` agrees with the original on every index. -/
theorem c7_reduce_roundtrip (p : OSMParams) (hds : 1 ≤ p.dataset_size)
    (hbs : 1 ≤ p.block_size) (idx : Int) :
    osmGetIndex (mkState (osmReduceParams (mkState p))) idx =
      osmGetIndex (mkState p) idx := by
  rw [mkState_reduce p hds hbs]

/-- Witness for C7 on a truncated instance, where `__reduce__` records an
adjusted `num_samples` and a clamped `block_size`. -/
theorem c7_witness :
    osmGetIndex (mkState (osmReduceParams
        (mkState ⟨10, 15, 1000000, 2, 1, true, true, revPerm⟩))) 3 =
      osmGetIndex (mkState ⟨10, 15, 1000000, 2, 1, true, true, revPerm⟩) 3 :=
  c7_reduce_roundtrip ⟨10, 15, 1000000, 2, 1, true, true, revPerm⟩
    (by decide) (by decide) 3

/-! ### The memory-mapped text store (`TextMemMapDataset`) -/

/-- Models `__idx_version__`, the index file version expected by the reader. -/
def idxVersion : String := "0.2"

/-- The pickled metadata dictionary stored in the `.info` sidecar file. -/
structure IdxInfo where
  newline_int : Option Nat
  version : Option String
deriving DecidableEq

/-- The failure modes of `TextMemMapDataset.load_file`: the missing-index
`ValueError`, the short-index `RuntimeError` and the version-mismatch
`RuntimeError`. -/
inductive LoadError where
  | indexMissing
  | headerMismatch
  | versionMismatch
deriving DecidableEq

/-- The outcome of a successful `load_file`, recording whether the
newline-mismatch warning was logged. -/
structure LoadResult where
  midx : List Nat
  newlineWarning : Bool
deriving DecidableEq

/-- Models `TextMemMapDataset.load_file` for one file: `indexExists` is
`_index_file_exists(idx_fn)`, `midx` the loaded index array, `info` the
pickled metadata.  Mirrors the source order: header-length check, then the
(non-fatal) newline test, then the version test. -/
def loadFile (indexExists : Bool) (midx : List Nat) (info : IdxInfo)
    (header_lines : Nat) (newline_int : Nat) : Except LoadError LoadResult :=
  if indexExists then
    if midx.length < header_lines then .error .headerMismatch
    else
      let warned := match info.newline_int with
        | some m => m != newline_int
        | none => false
      if idxVersion != info.version.getD "0.0" then .error .versionMismatch
      else .ok ⟨midx, warned⟩
  else .error .indexMissing

/-- Models `_fetch_sample_from_memmap`: the byte slice `mdata[i:j]` (numpy slicing
clamps out-of-range bounds).  UTF-8 decoding is kept at the byte level. -/
def fetchSample (mdata : List Nat) (i j : Nat) : List Nat :=
  (mdata.drop i).take (j - i)

/-- The byte-range resolution of `TextMemMapDataset.__getitem__` for a
single file: record `k` (after the `header_lines` offset) spans
`[0, midx[0])` when `k + header_lines = 0` and
`[midx[k+header_lines-1] + 1, midx[k+header_lines])` otherwise, skipping the
newline byte. -/
def getRecord (mdata midx : List Nat) (header_lines k : Nat) : List Nat :=
  if k + header_lines = 0 then fetchSample mdata 0 (midx.getD 0 0)
  else
    fetchSample mdata (midx.getD (k + header_lines - 1) 0 + 1)
      (midx.getD (k + header_lines) 0)

/-- The sorted positions of the newline byte in the data (`np.where(mdata ==
newline_int)[0]`). -/
def nlPositions (nl : Nat) : List Nat → List Nat
  | [] => []
  | b :: rest =>
    if b = nl then 0 :: (nlPositions nl rest).map (fun x => x + 1)
    else (nlPositions nl rest).map (fun x => x + 1)

/-- Modelled from the spec: `build_index_from_memdata` is imported from
`nemo.collections.llm.gpt.data.utils`, which is not among the sources here.
Spec section 3 describes the index as the ordered byte offsets of the
newline (or EOF) terminating each record, and section 4.1 adds the file
length as the final offset when the file does not end with the newline
byte. -/
def buildIndexFromMemdata (mdata : List Nat) (nl : Nat) : List Nat :=
  if mdata.getLast? = some nl then nlPositions nl mdata
  else nlPositions nl mdata ++ [mdata.length]

/-- All records of one indexed file, read through the byte-range
resolution with `header_lines = 0`. -/
def allRecords (mdata : List Nat) (nl : Nat) : List (List Nat) :=
  (List.range (buildIndexFromMemdata mdata nl).length).map
    (fun k => getRecord mdata (buildIndexFromMemdata mdata nl) 0 k)

/-- Rejoining records with the newline byte as separator. -/
def rejoinWith (nl : Nat) : List (List Nat) → List Nat
  | [] => []
  | [r] => r
  | r :: s :: rs => r ++ nl :: rejoinWith nl (s :: rs)

/-- The pair of sidecar files for one data file (`<idx>.npy`, `<idx>.info`);
`none` means the file does not exist. -/
structure IndexFiles where
  npy : Option (List Nat)
  info : Option IdxInfo
deriving DecidableEq

/-- Models `_index_file_exists`: both sidecar files are present. -/
def indexFileExists (fs : IndexFiles) : Bool := fs.npy.isSome && fs.info.isSome

/-- Models `_build_memmap_index_files`: a no-op returning `False` when both sidecar
files exist, otherwise builds the index (the integer-array validation is
vacuous in the embedding) and writes both files, returning `True`. -/
def buildMemmapIndexFiles (fs : IndexFiles) (mdata : List Nat) (nl : Nat) :
    Bool × IndexFiles :=
  if indexFileExists fs then (false, fs)
  else
    (true,
      { npy := some (buildIndexFromMemdata mdata nl)
        info := some { newline_int := some nl, version := some idxVersion } })

/-- C6: opening the store fails with `IndexMissing` when the sidecar index
files are absent; fails with `IndexVersionMismatch` when the stored version
string differs from the expected `"0.2"` (for example a stored `"0.1"`); and
fails with `HeaderMismatch` when the index is shorter than `header_lines`.
Each failure is a raised error, never auto-recovered. -/
theorem c6_load_errors :
    idxVersion = "0.2" ∧
    (∀ (midx : List Nat) (info : IdxInfo) (hl nl : Nat),
      loadFile false midx info hl nl = .error .indexMissing) ∧
    (∀ (midx : List Nat) (info : IdxInfo) (hl nl : Nat) (v : String),
      hl ≤ midx.length → info.version = some v → v ≠ idxVersion →
      loadFile true midx info hl nl = .error .versionMismatch) ∧
    (∀ (midx : List Nat) (info : IdxInfo) (hl nl : Nat),
      midx.length < hl → loadFile true midx info hl nl = .error .headerMismatch) := by
  refine ⟨rfl, ?_, ?_, ?_⟩
  · intro midx info hl nl
    rfl
  · intro midx info hl nl v hhl hv hne
    unfold loadFile
    rw [if_pos rfl, if_neg (by omega), hv]
    rw [if_pos ?_]
    simp only [Option.getD_some]
    simpa using fun hc => hne hc.symm
  · intro midx info hl nl hlt
    unfold loadFile
    rw [if_pos rfl, if_pos hlt]

/-- Witness for C6: a store whose `.info` records version `"0.1"` is
rejected with a version mismatch; a missing index and a short index fail
with their own errors. -/
theorem c6_witness :
    loadFile false [3] ⟨some 10, some "0.2"⟩ 0 10 = .error .indexMissing ∧
    loadFile true [3] ⟨some 10, some "0.1"⟩ 0 10 = .error .versionMismatch ∧
    loadFile true [3] ⟨some 10, some "0.2"⟩ 2 10 = .error .headerMismatch :=
  ⟨c6_load_errors.2.1 [3] ⟨some 10, some "0.2"⟩ 0 10,
    c6_load_errors.2.2.1 [3] ⟨some 10, some "0.1"⟩ 0 10 "0.1" (by decide) rfl
      (by decide),
    c6_load_errors.2.2.2 [3] ⟨some 10, some "0.2"⟩ 2 10 (by decide)⟩

/-- C10: a mismatch between the `newline_int` recorded in the metadata and
the configured newline byte is not an error — loading proceeds and only a
warning is logged — unlike a version mismatch or missing index files, which
abort with an error. -/
theorem c10_newline_warning (midx : List Nat) (info : IdxInfo) (hl nl m : Nat)
    (hhl : hl ≤ midx.length) (hv : info.version.getD "0.0" = idxVersion)
    (hm : info.newline_int = some m) (hne : m ≠ nl) :
    loadFile true midx info hl nl = .ok ⟨midx, true⟩ ∧
    loadFile false midx info hl nl = .error .indexMissing ∧
    (∀ info2 : IdxInfo, info2.version.getD "0.0" ≠ idxVersion →
      loadFile true midx info2 hl nl = .error .versionMismatch) := by
  refine ⟨?_, rfl, ?_⟩
  · unfold loadFile
    rw [if_pos rfl, if_neg (by omega), hm]
    rw [if_neg (by rw [hv]; simp)]
    have hw : (m != nl) = true := by simpa using hne
    show Except.ok (⟨midx, m != nl⟩ : LoadResult) =
      Except.ok (⟨midx, true⟩ : LoadResult)
    rw [hw]
  · intro info2 hv2
    unfold loadFile
    rw [if_pos rfl, if_neg (by omega)]
    rw [if_pos (by simpa using fun hc => hv2 hc.symm)]

/-- Witness for C10: `newline_int = 13` stored while 10 is configured loads
fine with the warning flag set. -/
theorem c10_witness :
    loadFile true [3] ⟨some 13, some "0.2"⟩ 0 10 = .ok ⟨[3], true⟩ ∧
    loadFile false [3] ⟨some 13, some "0.2"⟩ 0 10 = .error .indexMissing ∧
    (∀ info2 : IdxInfo, info2.version.getD "0.0" ≠ idxVersion →
      loadFile true [3] info2 0 10 = .error .versionMismatch) :=
  c10_newline_warning [3] ⟨some 13, some "0.2"⟩ 0 10 13 (by decide) rfl rfl
    (by decide)

/-- C8: index construction is idempotent — when both sidecar files exist it
returns `False` and leaves the filesystem unchanged; when they do not both
exist it builds the index, writes both files (the array and the metadata
with `newline_int` and version `"0.2"`), and returns `True`. -/
theorem c8_build_idempotent (fs : IndexFiles) (mdata : List Nat) (nl : Nat) :
    (indexFileExists fs = true → buildMemmapIndexFiles fs mdata nl = (false, fs)) ∧
    (indexFileExists fs = false →
      buildMemmapIndexFiles fs mdata nl =
        (true,
          { npy := some (buildIndexFromMemdata mdata nl)
            info := some { newline_int := some nl, version := some idxVersion } })) := by
  constructor
  · intro h
    unfold buildMemmapIndexFiles
    rw [if_pos h]
  · intro h
    unfold buildMemmapIndexFiles
    rw [if_neg (by simp [h])]

/-- Witness for C8: an existing index pair is left untouched with result
`False`; a missing `.info` file triggers a full rebuild with result
`True`. -/
theorem c8_witness :
    buildMemmapIndexFiles ⟨some [0], some ⟨some 10, some "0.2"⟩⟩ [97, 10] 10 =
        (false, ⟨some [0], some ⟨some 10, some "0.2"⟩⟩) ∧
      buildMemmapIndexFiles ⟨some [0], none⟩ [97, 10] 10 =
        (true,
          { npy := some (buildIndexFromMemdata [97, 10] 10)
            info := some { newline_int := some 10, version := some idxVersion } }) :=
  ⟨(c8_build_idempotent ⟨some [0], some ⟨some 10, some "0.2"⟩⟩ [97, 10] 10).1 rfl,
    (c8_build_idempotent ⟨some [0], none⟩ [97, 10] 10).2 rfl⟩

/-! ### Round trip through the index (C5) -/

theorem nlPositions_append (nl : Nat) (xs ys : List Nat) :
    nlPositions nl (xs ++ ys) =
      nlPositions nl xs ++ (nlPositions nl ys).map (fun x => x + xs.length) := by
  induction xs with
  | nil => simp [nlPositions]
  | cons b xs' ih =>
    have hstep : nlPositions nl ((b :: xs') ++ ys) =
        (if b = nl then [0] else []) ++
          (nlPositions nl (xs' ++ ys)).map (fun x => x + 1) := by
      by_cases hb : b = nl <;> simp [nlPositions, hb]
    have hstep2 : nlPositions nl (b :: xs') =
        (if b = nl then [0] else []) ++
          (nlPositions nl xs').map (fun x => x + 1) := by
      by_cases hb : b = nl <;> simp [nlPositions, hb]
    rw [hstep, hstep2, ih, List.map_append, List.map_map, List.append_assoc]
    have hmaps : (nlPositions nl ys).map ((fun x => x + 1) ∘ (fun x => x + xs'.length)) =
        (nlPositions nl ys).map (fun x => x + (b :: xs').length) := by
      apply List.map_congr_left
      intro a _
      simp only [Function.comp_apply, List.length_cons]
      omega
    rw [hmaps]

theorem nlPositions_nil_of_not_mem {nl : Nat} {xs : List Nat} (h : nl ∉ xs) :
    nlPositions nl xs = [] := by
  induction xs with
  | nil => rfl
  | cons b xs' ih =>
    have hb : ¬b = nl := fun hc => h (by rw [hc]; exact List.mem_cons_self nl xs')
    simp only [nlPositions]
    rw [if_neg hb, ih (fun hm => h (List.mem_cons_of_mem b hm))]
    rfl

theorem mem_first_split {nl : Nat} {l : List Nat} (h : nl ∈ l) :
    ∃ xs ys, l = xs ++ nl :: ys ∧ nl ∉ xs := by
  induction l with
  | nil => exact absurd h (List.not_mem_nil nl)
  | cons b t ih =>
    by_cases hb : b = nl
    · exact ⟨[], t, by rw [hb]; rfl, List.not_mem_nil nl⟩
    · have hmem : nl ∈ t := by
        rcases List.mem_cons.mp h with h1 | h1
        · exact absurd h1.symm hb
        · exact h1
      obtain ⟨xs, ys, heq, hnx⟩ := ih hmem
      refine ⟨b :: xs, ys, by rw [heq]; rfl, ?_⟩
      intro hc
      rcases List.mem_cons.mp hc with h1 | h1
      · exact hb h1.symm
      · exact hnx h1

theorem buildIndex_of_not_end {mdata : List Nat} {nl : Nat}
    (h : mdata.getLast? ≠ some nl) :
    buildIndexFromMemdata mdata nl = nlPositions nl mdata ++ [mdata.length] := by
  unfold buildIndexFromMemdata
  rw [if_neg h]

theorem buildIndex_ne_nil {mdata : List Nat} {nl : Nat}
    (h : mdata.getLast? ≠ some nl) : buildIndexFromMemdata mdata nl ≠ [] := by
  rw [buildIndex_of_not_end h]
  simp

theorem buildIndex_split {nl : Nat} {xs ys : List Nat} (hxs : nl ∉ xs)
    (hys : ys.getLast? ≠ some nl) (hysne : ys ≠ []) :
    buildIndexFromMemdata (xs ++ nl :: ys) nl =
      xs.length ::
        (buildIndexFromMemdata ys nl).map (fun x => x + (xs.length + 1)) := by
  have hlast : (xs ++ nl :: ys).getLast? = ys.getLast? := by
    obtain ⟨y, ys', rfl⟩ := List.exists_cons_of_ne_nil hysne
    rw [List.getLast?_append_of_ne_nil _ (by simp)]
    exact List.getLast?_cons_cons
  rw [buildIndex_of_not_end (by rw [hlast]; exact hys)]
  rw [nlPositions_append, nlPositions_nil_of_not_mem hxs, List.nil_append]
  have hcons : nlPositions nl (nl :: ys) =
      0 :: (nlPositions nl ys).map (fun x => x + 1) := by
    simp [nlPositions]
  rw [hcons, buildIndex_of_not_end hys]
  simp only [List.map_cons, List.map_map, List.map_append, List.cons_append,
    List.map_nil]
  congr 1
  · omega
  congr 1
  · apply List.map_congr_left
    intro a _
    simp only [Function.comp_apply]
    omega
  · simp only [List.length_append, List.length_cons]
    congr 1
    omega

theorem fetch_head (xs rest : List Nat) :
    fetchSample (xs ++ rest) 0 xs.length = xs := by
  unfold fetchSample
  simp only [List.drop_zero, Nat.sub_zero]
  exact List.take_left xs rest

theorem fetch_shift (xs ys : List Nat) (nl a b : Nat) :
    fetchSample (xs ++ nl :: ys) (xs.length + 1 + a) (xs.length + 1 + b) =
      fetchSample ys a b := by
  unfold fetchSample
  have h1 : xs ++ nl :: ys = (xs ++ [nl]) ++ ys := by simp
  have h2 : xs.length + 1 + a = (xs ++ [nl]).length + a := by simp
  rw [h1, h2, List.drop_append]
  congr 1
  omega

theorem fetch_shift' (xs ys : List Nat) (nl a b i j : Nat)
    (hi : i = xs.length + 1 + a) (hj : j = xs.length + 1 + b) :
    fetchSample (xs ++ nl :: ys) i j = fetchSample ys a b := by
  subst hi
  subst hj
  exact fetch_shift xs ys nl a b

theorem getRecord_shift (xs ys : List Nat) (nl : Nat) (M : List Nat) (k : Nat)
    (hk : k < M.length) :
    getRecord (xs ++ nl :: ys)
        (xs.length :: M.map (fun x => x + (xs.length + 1))) 0 (k + 1) =
      getRecord ys M 0 k := by
  have hgetD : ∀ j, j < M.length →
      (M.map (fun x => x + (xs.length + 1))).getD j 0 =
        M.getD j 0 + (xs.length + 1) := by
    intro j hj
    rw [List.getD_eq_getElem _ _ (by simpa using hj), List.getElem_map,
      List.getD_eq_getElem _ _ hj]
  cases k with
  | zero =>
    show fetchSample (xs ++ nl :: ys) (xs.length + 1)
        ((M.map (fun x => x + (xs.length + 1))).getD 0 0) = getRecord ys M 0 0
    rw [hgetD 0 (by omega)]
    rw [fetch_shift' xs ys nl 0 (M.getD 0 0) (xs.length + 1)
      (M.getD 0 0 + (xs.length + 1)) (by omega) (by omega)]
    rfl
  | succ k' =>
    show fetchSample (xs ++ nl :: ys)
        ((M.map (fun x => x + (xs.length + 1))).getD k' 0 + 1)
        ((M.map (fun x => x + (xs.length + 1))).getD (k' + 1) 0) =
      getRecord ys M 0 (k' + 1)
    rw [hgetD k' (by omega), hgetD (k' + 1) hk]
    rw [fetch_shift' xs ys nl (M.getD k' 0 + 1) (M.getD (k' + 1) 0)
      (M.getD k' 0 + (xs.length + 1) + 1) (M.getD (k' + 1) 0 + (xs.length + 1))
      (by omega) (by omega)]
    rfl

theorem allRecords_split (xs ys : List Nat) (nl : Nat) (hxs : nl ∉ xs)
    (hys : ys.getLast? ≠ some nl) (hysne : ys ≠ []) :
    allRecords (xs ++ nl :: ys) nl = xs :: allRecords ys nl := by
  unfold allRecords
  rw [buildIndex_split hxs hys hysne]
  rw [show (xs.length :: (buildIndexFromMemdata ys nl).map
      (fun x => x + (xs.length + 1))).length =
      (buildIndexFromMemdata ys nl).length + 1 from by simp]
  rw [List.range_succ_eq_map, List.map_cons]
  congr 1
  · exact fetch_head xs (nl :: ys)
  · rw [List.map_map]
    apply List.map_congr_left
    intro k hk
    have hk2 : k < (buildIndexFromMemdata ys nl).length := List.mem_range.mp hk
    show getRecord (xs ++ nl :: ys)
        (xs.length :: (buildIndexFromMemdata ys nl).map
          (fun x => x + (xs.length + 1))) 0 (k + 1) =
      getRecord ys (buildIndexFromMemdata ys nl) 0 k
    exact getRecord_shift xs ys nl (buildIndexFromMemdata ys nl) k hk2

theorem rejoin_allRecords (nl : Nat) :
    ∀ (n : Nat) (mdata : List Nat), mdata.length ≤ n →
      mdata.getLast? ≠ some nl → rejoinWith nl (allRecords mdata nl) = mdata := by
  intro n
  induction n with
  | zero =>
    intro mdata hlen h
    have hnil : mdata = [] := List.length_eq_zero.mp (by omega)
    subst hnil
    rfl
  | succ n ih =>
    intro mdata hlen h
    by_cases hmem : nl ∈ mdata
    · obtain ⟨xs, ys, rfl, hxs⟩ := mem_first_split hmem
      have hysne : ys ≠ [] := by
        intro hc
        subst hc
        apply h
        have h2 : xs ++ nl :: ([] : List Nat) = xs ++ [nl] := rfl
        rw [h2, List.getLast?_concat]
      have hys : ys.getLast? ≠ some nl := by
        obtain ⟨y, ys', rfl⟩ := List.exists_cons_of_ne_nil hysne
        intro hc
        apply h
        rw [List.getLast?_append_of_ne_nil _ (by simp), List.getLast?_cons_cons]
        exact hc
      rw [allRecords_split xs ys nl hxs hys hysne]
      have hne2 : allRecords ys nl ≠ [] := by
        unfold allRecords
        intro hc
        have h3 := congrArg List.length hc
        simp only [List.length_map, List.length_range, List.length_nil] at h3
        exact buildIndex_ne_nil hys (List.length_eq_zero.mp h3)
      obtain ⟨r, rs, hrr⟩ := List.exists_cons_of_ne_nil hne2
      rw [hrr]
      show xs ++ nl :: rejoinWith nl (r :: rs) = xs ++ nl :: ys
      rw [← hrr]
      rw [ih ys (by simp only [List.length_append, List.length_cons] at hlen; omega) hys]
    · have hbi : buildIndexFromMemdata mdata nl = [mdata.length] := by
        rw [buildIndex_of_not_end h, nlPositions_nil_of_not_mem hmem,
          List.nil_append]
      unfold allRecords
      rw [hbi]
      show mdata.take mdata.length = mdata
      exact List.take_length mdata

/-- C5 counterexample: the file `"a\n"` (bytes `[97, 10]`) is indexed as one
record `[97]`; rejoining the records with the newline byte as separator
yields `[97]`, not the original `[97, 10]` — the trailing newline of a
newline-terminated file is not reproduced. -/
theorem c5_counterexample :
    rejoinWith 10 (allRecords [97, 10] 10) ≠ [97, 10] := by decide

/-- C5 (amended): record lookup resolves record 0 to the byte range
`[0, index[0])` and record `k > 0` to `[index[k-1]+1, index[k])`, skipping
the newline byte (with the samples read as raw byte slices); and reading
every record of an indexed file and rejoining them with the newline byte
reconstructs exactly the original file content PROVIDED the file does not
end with the newline byte (for a newline-terminated file the trailing
newline is lost — see the counterexample). -/
theorem c5_record_ranges_roundtrip :
    (∀ (mdata midx : List Nat) (k : Nat),
      getRecord mdata midx 0 0 = fetchSample mdata 0 (midx.getD 0 0) ∧
      (0 < k → getRecord mdata midx 0 k =
        fetchSample mdata (midx.getD (k - 1) 0 + 1) (midx.getD k 0))) ∧
    (∀ (mdata : List Nat) (nl : Nat), mdata.getLast? ≠ some nl →
      rejoinWith nl (allRecords mdata nl) = mdata) := by
  constructor
  · intro mdata midx k
    refine ⟨rfl, ?_⟩
    intro hk
    unfold getRecord
    rw [if_neg (by omega)]
    rfl
  · intro mdata nl h
    exact rejoin_allRecords nl mdata.length mdata (Nat.le_refl _) h

/-- Witness for C5 on the file `"a\nb"` (bytes `[97, 10, 98]`): record 1
spans `[index[0]+1, index[1])`, and the round trip reproduces the file. -/
theorem c5_witness :
    getRecord [97, 10, 98] [1, 3] 0 1 =
        fetchSample [97, 10, 98] (([1, 3] : List Nat).getD 0 0 + 1)
          (([1, 3] : List Nat).getD 1 0) ∧
      rejoinWith 10 (allRecords [97, 10, 98] 10) = [97, 10, 98] :=
  ⟨(c5_record_ranges_roundtrip.1 [97, 10, 98] [1, 3] 1).2 (by decide),
    c5_record_ranges_roundtrip.2 [97, 10, 98] 10 (by decide)⟩

end NeMoCore
